import Mathlib

/-!
# Verification of the Filtered Space-Saving TopK sketch (`topk.go`)

A shallow embedding of the Go package `topk`, which implements the Filtered
Space-Saving algorithm: a bounded min-heap of monitored `Element`s with a
key-to-slot index map, plus an overflow filter (`alphas`) of counters indexed
by a multiply-shift range reducer.

Conventions of the embedding:
* Go `int` becomes `Int`; Go `uint32`/`uint64` arithmetic is `Nat` with
  explicit `% 2^32` / `% 2^64` where overflow can occur.
* The Go map `map[string]int` becomes an association list
  `List (String × Nat)` with Go's first-match lookup, in-place overwrite on
  assignment and removal on delete.  Go map iteration order is observable
  only where the map is serialized or folded into a fresh map; there it is
  modelled as the association-list order.
* The external hash `metro.Hash64Str` (excluded from the spec) is a
  parameter `hash : String → Nat` producing the 64-bit digest.
* All state mutation is modelled by explicit state passing.
-/

namespace Topk

/-- `Element` of `topk.go`: a reported estimate. -/
structure Element where
  Key : String
  Count : Int
  Error : Int
deriving DecidableEq, Repr, Inhabited

/-- `keys.Less i j` from `topk.go`: min-heap order on `Count` ascending,
ties broken by `Error` descending. -/
def lessE (a b : Element) : Prop :=
  a.Count < b.Count ∨ (a.Count = b.Count ∧ b.Error < a.Error)

instance : DecidableRel lessE := fun a b => by
  unfold lessE; infer_instance

/-- The complement of `lessE` with the arguments swapped: the non-strict
heap order (`a` may sit above `b` in the heap). -/
def leE (a b : Element) : Prop := ¬ lessE b a

instance : DecidableRel leE := fun a b => by
  unfold leE; infer_instance

/-- Element access `elts[i]` (in-bounds everywhere it is used by the source). -/
def getE (l : List Element) (i : Nat) : Element := l.getD i default

/-! ## Association-list model of Go's `map[string]int` -/

/-- Go map lookup `m[x]` (first match). -/
def alookup : List (String × Nat) → String → Option Nat
  | [], _ => none
  | (k, v) :: t, x => if k = x then some v else alookup t x

/-- Go map assignment `m[x] = v`: overwrite in place, else append. -/
def aset : List (String × Nat) → String → Nat → List (String × Nat)
  | [], x, v => [(x, v)]
  | (k, w) :: t, x, v => if k = x then (x, v) :: t else (k, w) :: aset t x v

/-- Go map removal `delete(m, x)`. -/
def adel : List (String × Nat) → String → List (String × Nat)
  | [], _ => []
  | (k, w) :: t, x => if k = x then adel t x else (k, w) :: adel t x

/-! ## The `keys` structure: heap array plus index map -/

/-- `keys` of `topk.go`: the element array `elts` and the key-to-slot map `m`,
kept in lockstep. -/
structure Keys where
  m : List (String × Nat)
  elts : List Element
deriving DecidableEq, Repr, Inhabited

/-- `h.Less(i, j)` on the heap slots. -/
def lessAt (tk : Keys) (i j : Nat) : Prop := lessE (getE tk.elts i) (getE tk.elts j)

instance (tk : Keys) : DecidableRel (lessAt tk) := fun i j => by
  unfold lessAt; infer_instance

/-- `keys.Swap(i, j)`: swap the two slots and repoint both map entries. -/
def swapK (tk : Keys) (i j : Nat) : Keys :=
  let ei := getE tk.elts i
  let ej := getE tk.elts j
  { m := aset (aset tk.m ej.Key i) ei.Key j,
    elts := (tk.elts.set i ej).set j ei }

/-- `container/heap.up`, with an explicit iteration bound so that the
definition stays kernel-computable.  The loop strictly decreases `j`, so
`j + 1` iterations always suffice (`upHeap` below supplies them). -/
def upHeapA : Nat → Keys → Nat → Keys
  | 0, tk, _ => tk
  | fuel + 1, tk, j =>
      if (j - 1) / 2 = j then tk
      else if lessAt tk j ((j - 1) / 2) then
        upHeapA fuel (swapK tk ((j - 1) / 2) j) ((j - 1) / 2)
      else tk

/-- `container/heap.up`: sift the element at `j` towards the root. -/
def upHeap (tk : Keys) (j : Nat) : Keys := upHeapA (j + 1) tk j

/-- The child slot chosen by `container/heap.down`: the smaller of the two
children of `i` (`2i+1` when the right child is absent or not smaller). -/
def downChild (tk : Keys) (i n : Nat) : Nat :=
  if 2 * i + 2 < n ∧ lessAt tk (2 * i + 2) (2 * i + 1) then 2 * i + 2 else 2 * i + 1

/-- `container/heap.down`, with an explicit iteration bound so that the
definition stays kernel-computable.  The slot index strictly increases and
stays below `n`, so `n - i` iterations always suffice (`downLoop` below
supplies them). -/
def downLoopA : Nat → Keys → Nat → Nat → Keys × Nat
  | 0, tk, i, _ => (tk, i)
  | fuel + 1, tk, i, n =>
      if 2 * i + 1 < n then
        if lessAt tk (downChild tk i n) i then
          downLoopA fuel (swapK tk i (downChild tk i n)) (downChild tk i n) n
        else (tk, i)
      else (tk, i)

/-- `container/heap.down`: sift the element at `i` towards the leaves,
returning the final position.  `n` is the heap length. -/
def downLoop (tk : Keys) (i n : Nat) : Keys × Nat := downLoopA (n - i) tk i n

/-- `container/heap.Fix(h, i)`: `down`, then `up` if nothing moved. -/
def heapFix (tk : Keys) (i : Nat) : Keys :=
  if i < (downLoop tk i tk.elts.length).2 then (downLoop tk i tk.elts.length).1
  else upHeap (downLoop tk i tk.elts.length).1 i

/-- `container/heap.Push`: `keys.Push` (append and register in the map)
followed by `up` at the last slot. -/
def heapPush (tk : Keys) (e : Element) : Keys :=
  let tk1 : Keys := { m := aset tk.m e.Key tk.elts.length, elts := tk.elts ++ [e] }
  upHeap tk1 (tk1.elts.length - 1)

/-! ## The `Stream` sketch -/

/-- `bufMultiplier` of `topk.go`. -/
def bufMultiplier : Int := 6

/-- `Stream` of `topk.go`. -/
structure Stream where
  n : Int
  k : Keys
  alphas : List Int
deriving DecidableEq, Repr, Inhabited

/-- `New(n)`: empty monitored set, `n*6*6` zeroed filter counters. -/
def new (n : Int) : Stream :=
  { n := n,
    k := { m := [], elts := [] },
    alphas := List.replicate ((n * bufMultiplier).toNat * 6) 0 }

/-- `reduce(x, n)` of `topk.go`:
`uint32(uint64(uint32(x)) * uint64(n) >> 32)` with Go's wrapping
`uint64` arithmetic made explicit. -/
def reduce (x : Nat) (n : Int) : Nat :=
  (x % 2 ^ 32) * ((n % 2 ^ 64).toNat) % 2 ^ 64 / 2 ^ 32 % 2 ^ 32

/-- `Stream.Insert(x, count)`, returning the reported element and the new
state.  `hash` stands for the external `metro.Hash64Str(·, 0)`. -/
def insert (hash : String → Nat) (s : Stream) (x : String) (count : Int) :
    Element × Stream :=
  let xhash := reduce (hash x) (s.alphas.length : Int)
  match alookup s.k.m x with
  | some idx =>
      -- tracked: bump the count in place and restore heap order
      let e0 := getE s.k.elts idx
      let elts' := s.k.elts.set idx { e0 with Count := e0.Count + count }
      let e := getE elts' idx
      (e, { s with k := heapFix { m := s.k.m, elts := elts' } idx })
  | none =>
      if (s.k.elts.length : Int) < s.n * bufMultiplier then
        -- free space: push a fresh element
        let e : Element := { Key := x, Count := count, Error := 0 }
        (e, { s with k := heapPush s.k e })
      else
        if s.alphas.getD xhash 0 + count < (getE s.k.elts 0).Count then
          -- not large enough to unseat the minimum: accumulate in the filter
          let e : Element := { Key := x, Error := s.alphas.getD xhash 0,
                               Count := s.alphas.getD xhash 0 + count }
          (e, { s with alphas := s.alphas.set xhash (s.alphas.getD xhash 0 + count) })
        else
          -- evict the minimum: bank its count, replace the root
          let minE := getE s.k.elts 0
          let mkhash := reduce (hash minE.Key) (s.alphas.length : Int)
          let alphas1 := s.alphas.set mkhash minE.Count
          let e : Element := { Key := x, Error := alphas1.getD xhash 0,
                               Count := alphas1.getD xhash 0 + count }
          let elts' := s.k.elts.set 0 e
          let m' := aset (adel s.k.m minE.Key) x 0
          (e, { s with k := heapFix { m := m', elts := elts' } 0, alphas := alphas1 })

/-- `Stream.Estimate(x)`. -/
def estimate (hash : String → Nat) (s : Stream) (x : String) : Element :=
  let xhash := reduce (hash x) (s.alphas.length : Int)
  match alookup s.k.m x with
  | some idx => getE s.k.elts idx
  | none =>
      let c := s.alphas.getD xhash 0
      { Key := x, Error := c, Count := c }

/-- Go's `<` on strings (bytewise lexicographic), modelled characterwise as
a non-strict comparison on the character sequences. -/
def charsLe : List Char → List Char → Bool
  | [], _ => true
  | _ :: _, [] => false
  | c :: cs, d :: ds =>
      if c.toNat < d.toNat then true
      else if d.toNat < c.toNat then false
      else charsLe cs ds

/-- `a ≤ b` in Go's string order. -/
def strLe (a b : String) : Prop := charsLe a.data b.data = true

instance (a b : String) : Decidable (strLe a b) :=
  inferInstanceAs (Decidable (charsLe a.data b.data = true))

/-- `elementsByCountDescending.Less` of `topk.go`, closed under ties:
the sorted-output order of `sort.Sort` (Count descending, Key ascending). -/
def leD (a b : Element) : Prop :=
  b.Count < a.Count ∨ (a.Count = b.Count ∧ strLe a.Key b.Key)

instance : DecidableRel leD := fun a b => by
  unfold leD; infer_instance

/-- Insertion step of the sorting model for `sort.Sort(elementsByCountDescending(...))`. -/
def insD (e : Element) : List Element → List Element
  | [] => [e]
  | a :: t => if leD e a then e :: a :: t else a :: insD e t

/-- Sorting model for `sort.Sort(elementsByCountDescending(...))`: any
comparison sort agrees with this on sequences without `leD`-ties both ways,
and the source only sorts lists of pairwise-distinct keys. -/
def sortD (l : List Element) : List Element := l.foldr insD []

/-- `Stream.Keys()`. -/
def keysOf (s : Stream) : List Element :=
  let elts := sortD s.k.elts
  if (elts.length : Int) > s.n then elts.take s.n.toNat else elts

/-- The per-key combined estimate computed inside `Stream.Merge`.
`none` when the key is tracked in neither operand (unreachable for the
union of monitored keys of well-formed sketches). -/
def combineE (hash : String → Nat) (s other : Stream) (k : String) : Option Element :=
  let xhash := reduce (hash k) (s.alphas.length : Int)
  let min1 := other.alphas.getD xhash 0
  let min2 := other.alphas.getD xhash 0
  match alookup s.k.m k, alookup other.k.m k with
  | some idx1, some idx2 =>
      some { Key := k,
             Count := (getE s.k.elts idx1).Count + (getE other.k.elts idx2).Count,
             Error := (getE s.k.elts idx1).Error + (getE other.k.elts idx2).Error }
  | some idx1, none =>
      some { Key := k,
             Count := (getE s.k.elts idx1).Count + min2,
             Error := (getE s.k.elts idx1).Error + min2 }
  | none, some idx2 =>
      some { Key := k,
             Count := (getE other.k.elts idx2).Count + min1,
             Error := (getE other.k.elts idx2).Error + min1 }
  | none, none => none

/-- The union of the two monitored key sets (`eKeys` in `Stream.Merge`),
in first-occurrence order. -/
def unionKeys (s other : Stream) : List String :=
  (s.k.elts.map (·.Key) ++ other.k.elts.map (·.Key)).dedup

/-- The sorted, trimmed list of combined estimates built by `Stream.Merge`. -/
def mergedElts (hash : String → Nat) (s other : Stream) : List Element :=
  if (((sortD ((unionKeys s other).filterMap (combineE hash s other))).length : Int)
      > s.n) then
    (sortD ((unionKeys s other).filterMap (combineE hash s other))).take s.n.toNat
  else sortD ((unionKeys s other).filterMap (combineE hash s other))

/-- `Stream.Merge(other)`: error on size mismatch, else rebuild the heap from
the sorted trimmed union and add the filters elementwise. -/
def merge (hash : String → Nat) (s other : Stream) : Except String Stream :=
  if s.n ≠ other.n then .error "expected stream of size n" else
    let tk := (mergedElts hash s other).foldl heapPush { m := [], elts := [] }
    let alphas' := (List.zipWith (· + ·) s.alphas other.alphas) ++
      s.alphas.drop other.alphas.length
    .ok { n := s.n, k := tk, alphas := alphas' }

/-! ## Serialization (msgp modelled at token level)

The binary codec itself (`tinylib/msgp`) is external to the spec; the
embedding serializes to a stream of msgp tokens, one per `Write*` call of
the source, and parses them back exactly as the `Read*` calls do. -/

/-- One msgp token: int, string, map header or array header. -/
inductive Tok where
  | tI (i : Int)
  | tS (s : String)
  | tM (n : Nat)
  | tA (n : Nat)
deriving DecidableEq, Repr

/-- `keys.EncodeMsgp`: map header, key/slot pairs, array header,
(key, count, error) triples.  Headers carry Go's `uint32(len(...))`. -/
def encKeys (tk : Keys) : List Tok :=
  Tok.tM (tk.m.length % 2 ^ 32) ::
    ((tk.m.map fun p => [Tok.tS p.1, Tok.tI (p.2 : Int)]).flatten ++
      (Tok.tA (tk.elts.length % 2 ^ 32) ::
        (tk.elts.map fun e => [Tok.tS e.Key, Tok.tI e.Count, Tok.tI e.Error]).flatten))

/-- Read `n` ints (the filter counters) in order. -/
def readInts : Nat → List Tok → Except Unit (List Int × List Tok)
  | 0, ts => .ok ([], ts)
  | n + 1, Tok.tI v :: ts => do
      let r ← readInts n ts
      .ok (v :: r.1, r.2)
  | _ + 1, _ => .error ()

/-- Read `n` key/slot pairs into a fresh map, as `keys.DecodeMsp` does. -/
def readPairs : Nat → List (String × Nat) → List Tok →
    Except Unit (List (String × Nat) × List Tok)
  | 0, acc, ts => .ok (acc, ts)
  | n + 1, acc, Tok.tS k :: Tok.tI v :: ts => readPairs n (aset acc k v.toNat) ts
  | _ + 1, _, _ => .error ()

/-- Read `n` (key, count, error) triples in order. -/
def readElems : Nat → List Tok → Except Unit (List Element × List Tok)
  | 0, ts => .ok ([], ts)
  | n + 1, Tok.tS k :: Tok.tI c :: Tok.tI er :: ts => do
      let r ← readElems n ts
      .ok (({ Key := k, Count := c, Error := er } : Element) :: r.1, r.2)
  | _ + 1, _ => .error ()

/-- `keys.DecodeMsp`. -/
def decKeys : List Tok → Except Unit (Keys × List Tok)
  | Tok.tM sz :: ts => do
      let rm ← readPairs sz [] ts
      match rm.2 with
      | Tok.tA sza :: ts2 => do
          let re ← readElems sza ts2
          .ok ({ m := rm.1, elts := re.1 }, re.2)
      | _ => .error ()
  | _ => .error ()

/-- `Stream.EncodeMsgp`: `n`, the filter array, then the monitored set. -/
def encStream (s : Stream) : List Tok :=
  Tok.tI s.n :: Tok.tA (s.alphas.length % 2 ^ 32) :: (s.alphas.map Tok.tI ++ encKeys s.k)

/-- `Stream.DecodeMsgp`. -/
def decStream : List Tok → Except Unit (Stream × List Tok)
  | Tok.tI n :: Tok.tA sz :: ts => do
      let ra ← readInts sz ts
      let rk ← decKeys ra.2
      .ok ({ n := n, k := rk.1, alphas := ra.1 }, rk.2)
  | _ => .error ()

/-! ## The `TopK` wrapper (total-weight counter)

Modelled from the spec: the repository's `TopK` wrapper type with its
`Count()` accessor and cumulative total-weight counter is exercised by the
tests but its source is not under `src/`.  Per the spec, the sketch owns "a
cumulative total-weight counter incremented by every Insert's weight
argument (independent of whether the key is tracked)", `Count()` returns
"the cumulative weight of all Insert calls since construction", and
`Decode(Encode(sketch))` preserves `Count()`, so the wrapper's codec
persists the counter alongside the `Stream` state. -/
structure TopK where
  stream : Stream
  total : Int
deriving DecidableEq, Repr

/-- Modelled from the spec: wrapper construction. -/
def topkNew (n : Int) : TopK := { stream := new n, total := 0 }

/-- Modelled from the spec: wrapper `Insert` always adds `weight` to the
total-weight counter and delegates to `Stream.Insert`. -/
def topkInsert (hash : String → Nat) (t : TopK) (x : String) (w : Int) :
    Element × TopK :=
  ((insert hash t.stream x w).1,
    { stream := (insert hash t.stream x w).2, total := t.total + w })

/-- Modelled from the spec: `Count()`. -/
def topkCount (t : TopK) : Int := t.total

/-- Modelled from the spec: wrapper encoding persists the counter, then the
`Stream` state. -/
def encTopK (t : TopK) : List Tok := Tok.tI t.total :: encStream t.stream

/-- Modelled from the spec: wrapper decoding. -/
def decTopK : List Tok → Except Unit (TopK × List Tok)
  | Tok.tI c :: ts => do
      let rs ← decStream ts
      .ok ({ stream := rs.1, total := c }, rs.2)
  | _ => .error ()

/-! ## Streams of inserts -/

/-- Run a sequence of `Insert(key, weight)` calls on a fresh `New(n)` sketch. -/
def runInserts (hash : String → Nat) (n : Int) (ops : List (String × Int)) : Stream :=
  ops.foldl (fun s p => (insert hash s p.1 p.2).2) (new n)

/-- Run a sequence of `Insert(key, weight)` calls on a fresh wrapper. -/
def runTopK (hash : String → Nat) (n : Int) (ops : List (String × Int)) : TopK :=
  ops.foldl (fun t p => (topkInsert hash t p.1 p.2).2) (topkNew n)

/-- The true cumulative weight inserted for `x` by `ops`. -/
def trueW : List (String × Int) → String → Int
  | [], _ => 0
  | p :: t, x => (if p.1 = x then p.2 else 0) + trueW t x

/-! ## Structural invariants of the monitored set -/

/-- The min-heap property of `container/heap` on the element array: no child
is `Less` than its parent. -/
def heapProp (l : List Element) : Prop :=
  ∀ j, j < l.length → 0 < j → leE (getE l ((j - 1) / 2)) (getE l j)

instance (l : List Element) : Decidable (heapProp l) := by
  unfold heapProp; infer_instance

/-- Lockstep of the index map and the element array: every slot's key maps
back to the slot, every map entry points at a slot holding its key, and the
map has no duplicate keys (it models a Go map). -/
def wfK (tk : Keys) : Prop :=
  (∀ i, i < tk.elts.length → alookup tk.m (getE tk.elts i).Key = some i) ∧
  (∀ p ∈ tk.m, p.2 < tk.elts.length ∧ (getE tk.elts p.2).Key = p.1) ∧
  (tk.m.map Prod.fst).Nodup

instance (tk : Keys) : Decidable (wfK tk) := by
  unfold wfK; infer_instance

/-- The inductive invariant relating a sketch state to a true-weight
function `f` on keys: the structural invariants, a nonempty filter, the
two-sided Space-Saving bound on every monitored element, the filter bound
on every unmonitored key, and the filter's relation to the heap root (all
counters zero while the monitored set has free space, and every counter at
most the minimum monitored count once it is full). -/
def inv (hash : String → Nat) (f : String → Int) (s : Stream) : Prop :=
  wfK s.k ∧ heapProp s.k.elts ∧ 0 < s.alphas.length ∧
  (∀ e ∈ s.k.elts, f e.Key ≤ e.Count ∧ e.Count - e.Error ≤ f e.Key) ∧
  (∀ y, alookup s.k.m y = none →
      f y ≤ s.alphas.getD (reduce (hash y) (s.alphas.length : Int)) 0) ∧
  ((s.k.elts.length : Int) < s.n * bufMultiplier → ∀ j, s.alphas.getD j 0 = 0) ∧
  (¬ (s.k.elts.length : Int) < s.n * bufMultiplier →
      ∀ j, s.alphas.getD j 0 ≤ (getE s.k.elts 0).Count)

/-!
# Theorems

Everything from here on is proof: first the order, list and association-list
lemma layer, then the heap lemmas, then the claims.
-/

/-! ## Order lemmas -/

theorem leE_iff {a b : Element} :
    leE a b ↔ (a.Count < b.Count ∨ (a.Count = b.Count ∧ b.Error ≤ a.Error)) := by
  unfold leE lessE; omega

theorem leE_refl (a : Element) : leE a a := by
  unfold leE lessE; omega

theorem leE_trans {a b c : Element} (hab : leE a b) (hbc : leE b c) : leE a c := by
  unfold leE lessE at *; omega

theorem leE_total (a b : Element) : leE a b ∨ leE b a := by
  unfold leE lessE; omega

theorem leE_of_lessE {a b : Element} (h : lessE a b) : leE a b := by
  unfold leE lessE at *; omega

theorem leE_of_not_lessE {a b : Element} (h : ¬ lessE a b) : leE b a := h

theorem leE_count {a b : Element} (h : leE a b) : a.Count ≤ b.Count := by
  unfold leE lessE at h; omega

theorem charsLe_total (xs : List Char) : ∀ ys, charsLe xs ys = true ∨ charsLe ys xs = true := by
  induction xs with
  | nil => intro ys; exact Or.inl rfl
  | cons c cs ih =>
      intro ys
      cases ys with
      | nil => exact Or.inr rfl
      | cons d ds =>
          by_cases h1 : c.toNat < d.toNat
          · left
            simp [charsLe, h1]
          · by_cases h2 : d.toNat < c.toNat
            · right
              simp [charsLe, h2]
            · rcases ih ds with h | h
              · left
                simpa [charsLe, h1, h2] using h
              · right
                simpa [charsLe, h1, h2] using h

theorem charsLe_trans {xs ys zs : List Char} (h1 : charsLe xs ys = true)
    (h2 : charsLe ys zs = true) : charsLe xs zs = true := by
  induction xs generalizing ys zs with
  | nil => rfl
  | cons c cs ih =>
      cases ys with
      | nil => simp [charsLe] at h1
      | cons d ds =>
          cases zs with
          | nil => simp [charsLe] at h2
          | cons e es =>
              simp only [charsLe] at h1 h2 ⊢
              by_cases hcd : c.toNat < d.toNat
              · by_cases hde : d.toNat < e.toNat
                · simp [show c.toNat < e.toNat by omega]
                · by_cases hed : e.toNat < d.toNat
                  · simp [hde, hed] at h2
                  · simp [show c.toNat < e.toNat by omega]
              · by_cases hdc : d.toNat < c.toNat
                · simp [hcd, hdc] at h1
                · by_cases hde : d.toNat < e.toNat
                  · simp [show c.toNat < e.toNat by omega]
                  · by_cases hed : e.toNat < d.toNat
                    · simp [hde, hed] at h2
                    · have hce1 : ¬ c.toNat < e.toNat := by omega
                      have hce2 : ¬ e.toNat < c.toNat := by omega
                      rw [if_neg hce1, if_neg hce2]
                      rw [if_neg hcd, if_neg hdc] at h1
                      rw [if_neg hde, if_neg hed] at h2
                      exact ih h1 h2

theorem leD_total (a b : Element) : leD a b ∨ leD b a := by
  unfold leD
  rcases lt_trichotomy a.Count b.Count with h | h | h
  · exact Or.inr (Or.inl h)
  · rcases charsLe_total a.Key.data b.Key.data with hk | hk
    · exact Or.inl (Or.inr ⟨h, hk⟩)
    · exact Or.inr (Or.inr ⟨h.symm, hk⟩)
  · exact Or.inl (Or.inl h)

theorem leD_trans {a b c : Element} (hab : leD a b) (hbc : leD b c) : leD a c := by
  unfold leD strLe at *
  rcases hab with h1 | ⟨h1, h2⟩ <;> rcases hbc with h3 | ⟨h3, h4⟩
  · exact Or.inl (by omega)
  · exact Or.inl (by omega)
  · exact Or.inl (by omega)
  · exact Or.inr ⟨by omega, charsLe_trans h2 h4⟩

theorem downChild_lt {tk : Keys} {i n : Nat} (h : 2 * i + 1 < n) :
    downChild tk i n < n := by
  unfold downChild; split <;> omega

theorem downChild_gt (tk : Keys) (i n : Nat) : i < downChild tk i n := by
  unfold downChild; split <;> omega

/-! ## Range reducer -/

theorem reduce_lt_two_pow_32 (x : Nat) (n : Int) : reduce x n < 2 ^ 32 :=
  Nat.mod_lt _ (by norm_num)

theorem reduce_lt (x : Nat) (n : Int) (hn : 1 ≤ n) : (reduce x n : Int) < n := by
  rcases le_or_lt n (2 ^ 32) with hsmall | hbig
  · -- no wrap: the product of a 32-bit value with `n ≤ 2^32` fits in 64 bits
    have hmod : n % 2 ^ 64 = n := Int.emod_eq_of_lt (by omega) (by omega)
    have hx : x % 2 ^ 32 < 2 ^ 32 := Nat.mod_lt _ (by norm_num)
    have hn32 : n.toNat ≤ 2 ^ 32 := by omega
    have hpos : 0 < n.toNat := by omega
    have hfit : (x % 2 ^ 32) * n.toNat < 2 ^ 64 := by
      have h1 : (x % 2 ^ 32) * n.toNat ≤ (2 ^ 32 - 1) * 2 ^ 32 :=
        Nat.mul_le_mul (by omega) hn32
      omega
    have hdiv : (x % 2 ^ 32) * n.toNat / 2 ^ 32 < n.toNat := by
      rw [Nat.div_lt_iff_lt_mul (by norm_num : 0 < 2 ^ 32)]
      calc (x % 2 ^ 32) * n.toNat < 2 ^ 32 * n.toNat :=
            (Nat.mul_lt_mul_right hpos).mpr hx
        _ = n.toNat * 2 ^ 32 := Nat.mul_comm _ _
    have hmle : (x % 2 ^ 32) * n.toNat % 2 ^ 64 / 2 ^ 32 % 2 ^ 32
        ≤ (x % 2 ^ 32) * n.toNat / 2 ^ 32 := by
      rw [Nat.mod_eq_of_lt hfit]; exact Nat.mod_le _ _
    unfold reduce
    rw [hmod]
    omega
  · -- the result is a `uint32`, hence below any `n ≥ 2^32`
    have := reduce_lt_two_pow_32 x n
    omega

/-- C9: `reduce(hash, n)` — the high 32 bits of the 64-bit product of the low
32 bits of the hash with `n` — lies in `[0, n)` for every hash and every
`n ≥ 1`; hence every overflow-filter access indexed by
`reduce(hash(key), len(alphas))` in `Insert`, `Estimate` and `Merge` is in
bounds whenever the filter is non-empty. -/
theorem claim_c9_reduce_in_range (x : Nat) (n : Int) (hn : 1 ≤ n) :
    (0 : Int) ≤ (reduce x n : Int) ∧ (reduce x n : Int) < n ∧
      (∀ al : List Int, 0 < al.length → reduce x (al.length : Int) < al.length) := by
  refine ⟨Int.ofNat_nonneg _, reduce_lt x n hn, fun al hal => ?_⟩
  have h := reduce_lt x (al.length : Int) (by omega)
  omega

/-- Witness for C9 at `x = 7`, `n = 5`. -/
theorem claim_c9_reduce_in_range_witness :
    (0 : Int) ≤ (reduce 7 5 : Int) ∧ (reduce 7 5 : Int) < 5 ∧
      (∀ al : List Int, 0 < al.length → reduce 7 (al.length : Int) < al.length) :=
  claim_c9_reduce_in_range 7 5 (by norm_num)


/-! ## List access lemmas -/

theorem length_setL {α} (l : List α) (i : Nat) (a : α) :
    (l.set i a).length = l.length := by simp

theorem getD_set_self {α} {l : List α} {i : Nat} {a : α} (d : α) (h : i < l.length) :
    (l.set i a).getD i d = a := by
  induction l generalizing i with
  | nil => simp at h
  | cons b t ih =>
      cases i with
      | zero => rfl
      | succ k => exact ih (by simpa using h)

theorem getD_set_ne {α} {l : List α} {i j : Nat} {a : α} (d : α) (h : j ≠ i) :
    (l.set i a).getD j d = l.getD j d := by
  induction l generalizing i j with
  | nil => rfl
  | cons b t ih =>
      cases i with
      | zero => cases j with
        | zero => omega
        | succ k => rfl
      | succ k => cases j with
        | zero => rfl
        | succ k2 => exact ih (by omega)

theorem getD_of_length_le {α} {l : List α} {i : Nat} (d : α) (h : l.length ≤ i) :
    l.getD i d = d := by
  induction l generalizing i with
  | nil => rfl
  | cons b t ih =>
      cases i with
      | zero => simp at h
      | succ k => exact ih (by simpa using h)

theorem getD_mem {α} {l : List α} {i : Nat} (d : α) (h : i < l.length) :
    l.getD i d ∈ l := by
  induction l generalizing i with
  | nil => simp at h
  | cons b t ih =>
      cases i with
      | zero => exact List.mem_cons_self b t
      | succ k => exact List.mem_cons_of_mem _ (ih (by simpa using h))

theorem mem_setL {α} {l : List α} {i : Nat} {a b : α} (h : b ∈ l.set i a) :
    b = a ∨ b ∈ l := by
  induction l generalizing i with
  | nil => simp at h
  | cons c t ih =>
      cases i with
      | zero =>
          rcases List.mem_cons.mp h with h1 | h1
          · exact Or.inl h1
          · exact Or.inr (List.mem_cons_of_mem _ h1)
      | succ k =>
          rcases List.mem_cons.mp h with h1 | h1
          · exact Or.inr (h1 ▸ List.mem_cons_self c t)
          · rcases ih h1 with h2 | h2
            · exact Or.inl h2
            · exact Or.inr (List.mem_cons_of_mem _ h2)

theorem getE_set_self {l : List Element} {i : Nat} {a : Element} (h : i < l.length) :
    getE (l.set i a) i = a := getD_set_self default h

theorem getE_set_ne {l : List Element} {i j : Nat} {a : Element} (h : j ≠ i) :
    getE (l.set i a) j = getE l j := getD_set_ne default h

theorem getE_mem {l : List Element} {i : Nat} (h : i < l.length) : getE l i ∈ l :=
  getD_mem default h

theorem getE_append_last (l : List Element) (e : Element) :
    getE (l ++ [e]) l.length = e := by
  induction l with
  | nil => rfl
  | cons b t ih => exact ih

theorem getE_append_lt {l : List Element} {e : Element} {i : Nat} (h : i < l.length) :
    getE (l ++ [e]) i = getE l i := by
  induction l generalizing i with
  | nil => simp at h
  | cons b t ih =>
      cases i with
      | zero => rfl
      | succ k => exact ih (by simpa using h)

/-- Pulling slot `k`'s element to the head while writing `x` into slot `k`
permutes a `cons` of the list. -/
theorem perm_set_cons (t : List Element) (k : Nat) (x : Element) (hk : k < t.length) :
    (getE t k :: t.set k x).Perm (x :: t) := by
  induction t generalizing k with
  | nil => simp at hk
  | cons c u ihu =>
      cases k with
      | zero => exact List.Perm.swap x c u
      | succ k2 =>
          have h2 : k2 < u.length := by simpa using hk
          have hrec := ihu k2 h2
          show (getE u k2 :: c :: u.set k2 x).Perm (x :: c :: u)
          have s1 : (getE u k2 :: c :: u.set k2 x).Perm (c :: getE u k2 :: u.set k2 x) :=
            List.Perm.swap c (getE u k2) (u.set k2 x)
          have s2 : (c :: getE u k2 :: u.set k2 x).Perm (c :: x :: u) :=
            List.Perm.cons c hrec
          have s3 : (c :: x :: u).Perm (x :: c :: u) := List.Perm.swap x c u
          exact s1.trans (s2.trans s3)

/-- The two `set`s of a swap at `i < j` permute the list. -/
theorem perm_swapL {l : List Element} {i j : Nat} (hij : i < j) (hj : j < l.length) :
    ((l.set i (getE l j)).set j (getE l i)).Perm l := by
  induction l generalizing i j with
  | nil => simp at hj
  | cons b t ih =>
      cases i with
      | zero =>
          cases j with
          | zero => omega
          | succ k =>
              have hk : k < t.length := by simpa using hj
              show (getE t k :: t.set k b).Perm (b :: t)
              exact perm_set_cons t k b hk
      | succ k =>
          cases j with
          | zero => omega
          | succ k2 =>
              have hrec := ih (i := k) (j := k2) (by omega) (by simpa using hj)
              show (b :: (t.set k (getE t k2)).set k2 (getE t k)).Perm (b :: t)
              exact List.Perm.cons b hrec

/-! ## Association-list lemmas -/

theorem alookup_aset_self (m : List (String × Nat)) (k : String) (v : Nat) :
    alookup (aset m k v) k = some v := by
  induction m with
  | nil => simp [aset, alookup]
  | cons p t ih =>
      rcases p with ⟨pk, pv⟩
      by_cases h : pk = k
      · simp [aset, h, alookup]
      · simp [aset, h, alookup, ih]

theorem alookup_aset_ne {m : List (String × Nat)} {k k' : String} (v : Nat)
    (h : k' ≠ k) : alookup (aset m k v) k' = alookup m k' := by
  have hkk : k ≠ k' := Ne.symm h
  induction m with
  | nil => simp [aset, alookup, hkk]
  | cons p t ih =>
      rcases p with ⟨pk, pv⟩
      by_cases h1 : pk = k
      · subst h1
        simp [aset, alookup, hkk]
      · simp [aset, h1, alookup, ih]

theorem alookup_adel_self (m : List (String × Nat)) (k : String) :
    alookup (adel m k) k = none := by
  induction m with
  | nil => rfl
  | cons p t ih =>
      rcases p with ⟨pk, pv⟩
      by_cases h : pk = k
      · simp [adel, h, ih]
      · simp [adel, h, alookup, ih]

theorem alookup_adel_ne {m : List (String × Nat)} {k k' : String}
    (h : k' ≠ k) : alookup (adel m k) k' = alookup m k' := by
  have hkk : k ≠ k' := Ne.symm h
  induction m with
  | nil => rfl
  | cons p t ih =>
      rcases p with ⟨pk, pv⟩
      by_cases h1 : pk = k
      · subst h1
        simp [adel, alookup, hkk, ih]
      · simp [adel, h1, alookup, ih]

theorem alookup_mem {m : List (String × Nat)} {k : String} {v : Nat}
    (h : alookup m k = some v) : (k, v) ∈ m := by
  induction m with
  | nil => simp [alookup] at h
  | cons p t ih =>
      rcases p with ⟨pk, pv⟩
      by_cases h1 : pk = k
      · subst h1
        simp [alookup] at h
        simp [h]
      · simp [alookup, h1] at h
        exact List.mem_cons_of_mem _ (ih h)

theorem alookup_eq_none_iff {m : List (String × Nat)} {k : String} :
    alookup m k = none ↔ k ∉ m.map Prod.fst := by
  induction m with
  | nil => simp [alookup]
  | cons p t ih =>
      rcases p with ⟨pk, pv⟩
      by_cases h1 : pk = k
      · subst h1
        simp [alookup]
      · simp [alookup, h1, ih, Ne.symm h1]

theorem mem_aset {m : List (String × Nat)} {k : String} {v : Nat} {p : String × Nat}
    (h : p ∈ aset m k v) : p = (k, v) ∨ p ∈ m := by
  induction m with
  | nil => simp [aset] at h; exact Or.inl h
  | cons q t ih =>
      rcases q with ⟨qk, qv⟩
      by_cases h1 : qk = k
      · simp only [aset, h1, if_pos rfl] at h
        rcases List.mem_cons.mp h with h2 | h2
        · exact Or.inl h2
        · exact Or.inr (List.mem_cons_of_mem _ h2)
      · simp only [aset, if_neg h1] at h
        rcases List.mem_cons.mp h with h2 | h2
        · exact Or.inr (h2 ▸ List.mem_cons_self _ t)
        · rcases ih h2 with h3 | h3
          · exact Or.inl h3
          · exact Or.inr (List.mem_cons_of_mem _ h3)

theorem mem_adel {m : List (String × Nat)} {k : String} {p : String × Nat}
    (h : p ∈ adel m k) : p ∈ m ∧ p.1 ≠ k := by
  induction m with
  | nil => simp [adel] at h
  | cons q t ih =>
      rcases q with ⟨qk, qv⟩
      by_cases h1 : qk = k
      · simp only [adel, h1, if_pos rfl] at h
        exact ⟨List.mem_cons_of_mem _ (ih h).1, (ih h).2⟩
      · simp only [adel, if_neg h1] at h
        rcases List.mem_cons.mp h with h2 | h2
        · refine ⟨h2 ▸ List.mem_cons_self _ t, ?_⟩
          rw [h2]
          exact h1
        · exact ⟨List.mem_cons_of_mem _ (ih h2).1, (ih h2).2⟩

theorem mem_keys_aset {m : List (String × Nat)} {k x : String} {v : Nat}
    (h : x ∈ (aset m k v).map Prod.fst) : x ∈ m.map Prod.fst ∨ x = k := by
  simp only [List.mem_map] at h
  rcases h with ⟨p, hp, hx⟩
  rcases mem_aset hp with h1 | h1
  · right; rw [← hx, h1]
  · left; exact List.mem_map.mpr ⟨p, h1, hx⟩

theorem mem_keys_adel {m : List (String × Nat)} {k x : String}
    (h : x ∈ (adel m k).map Prod.fst) : x ∈ m.map Prod.fst := by
  simp only [List.mem_map] at h
  rcases h with ⟨p, hp, hx⟩
  exact List.mem_map.mpr ⟨p, (mem_adel hp).1, hx⟩

theorem nodup_keys_aset {m : List (String × Nat)} {k : String} {v : Nat}
    (h : (m.map Prod.fst).Nodup) : ((aset m k v).map Prod.fst).Nodup := by
  induction m with
  | nil => simp [aset]
  | cons q t ih =>
      rcases q with ⟨qk, qv⟩
      simp only [List.map_cons, List.nodup_cons] at h
      by_cases h1 : qk = k
      · subst h1
        simpa [aset] using h
      · simp only [aset, if_neg h1, List.map_cons, List.nodup_cons]
        refine ⟨fun hc => ?_, ih h.2⟩
        rcases mem_keys_aset hc with h2 | h2
        · exact h.1 h2
        · exact h1 h2

theorem nodup_keys_adel {m : List (String × Nat)} {k : String}
    (h : (m.map Prod.fst).Nodup) : ((adel m k).map Prod.fst).Nodup := by
  induction m with
  | nil => simp [adel]
  | cons q t ih =>
      rcases q with ⟨qk, qv⟩
      simp only [List.map_cons, List.nodup_cons] at h
      by_cases h1 : qk = k
      · simp only [adel, if_pos h1]
        exact ih h.2
      · simp only [adel, if_neg h1, List.map_cons, List.nodup_cons]
        exact ⟨fun hc => h.1 (mem_keys_adel hc), ih h.2⟩

theorem aset_fresh {m : List (String × Nat)} {k : String} (v : Nat)
    (h : alookup m k = none) : aset m k v = m ++ [(k, v)] := by
  induction m with
  | nil => rfl
  | cons q t ih =>
      rcases q with ⟨qk, qv⟩
      by_cases h1 : qk = k
      · subst h1
        simp [alookup] at h
      · simp only [alookup, if_neg h1] at h
        simp [aset, h1, ih h]

theorem mem_aset_strong {m : List (String × Nat)} {k : String} {v : Nat}
    {p : String × Nat} (hnd : (m.map Prod.fst).Nodup) (h : p ∈ aset m k v) :
    p = (k, v) ∨ (p ∈ m ∧ p.1 ≠ k) := by
  induction m with
  | nil => simp [aset] at h; exact Or.inl h
  | cons q t ih =>
      rcases q with ⟨qk, qv⟩
      simp only [List.map_cons, List.nodup_cons] at hnd
      by_cases h1 : qk = k
      · subst h1
        simp only [aset, if_pos rfl] at h
        rcases List.mem_cons.mp h with h2 | h2
        · exact Or.inl h2
        · refine Or.inr ⟨List.mem_cons_of_mem _ h2, fun he => hnd.1 ?_⟩
          exact he ▸ List.mem_map.mpr ⟨p, h2, rfl⟩
      · simp only [aset, if_neg h1] at h
        rcases List.mem_cons.mp h with h2 | h2
        · refine Or.inr ⟨h2 ▸ List.mem_cons_self _ t, ?_⟩
          rw [h2]
          exact h1
        · rcases ih hnd.2 h2 with h3 | h3
          · exact Or.inl h3
          · exact Or.inr ⟨List.mem_cons_of_mem _ h3.1, h3.2⟩

/-- The index of a member element. -/
theorem mem_getE {l : List Element} {e : Element} (h : e ∈ l) :
    ∃ i, i < l.length ∧ getE l i = e := by
  induction l with
  | nil => simp at h
  | cons b t ih =>
      rcases List.mem_cons.mp h with h1 | h1
      · exact ⟨0, by simp, h1.symm⟩
      · rcases ih h1 with ⟨i, hi, he⟩
        exact ⟨i + 1, by simpa using hi, he⟩

/-! ## Swap lemmas -/

theorem swapK_elts_length (tk : Keys) (i j : Nat) :
    (swapK tk i j).elts.length = tk.elts.length := by
  simp [swapK]

theorem swapK_perm {tk : Keys} {i j : Nat} (hij : i < j) (hj : j < tk.elts.length) :
    (swapK tk i j).elts.Perm tk.elts := perm_swapL hij hj

theorem getE_swapK_fst {tk : Keys} {i j : Nat} (hij : i ≠ j) (hi : i < tk.elts.length) :
    getE (swapK tk i j).elts i = getE tk.elts j := by
  unfold swapK
  rw [getE_set_ne hij, getE_set_self hi]

theorem getE_swapK_snd {tk : Keys} {i j : Nat} (hj : j < tk.elts.length) :
    getE (swapK tk i j).elts j = getE tk.elts i := by
  unfold swapK
  exact getE_set_self (by simpa using hj)

theorem getE_swapK_other {tk : Keys} {i j t : Nat} (hti : t ≠ i) (htj : t ≠ j) :
    getE (swapK tk i j).elts t = getE tk.elts t := by
  unfold swapK
  rw [getE_set_ne htj, getE_set_ne hti]

/-! ## Well-formedness of the heap-map lockstep -/

theorem wfK_lookup {tk : Keys} (hw : wfK tk) {k : String} {i : Nat}
    (h : alookup tk.m k = some i) :
    i < tk.elts.length ∧ (getE tk.elts i).Key = k :=
  hw.2.1 (k, i) (alookup_mem h)

theorem wfK_key_ne {tk : Keys} (hw : wfK tk) {i j : Nat} (hi : i < tk.elts.length)
    (hj : j < tk.elts.length) (hij : i ≠ j) :
    (getE tk.elts i).Key ≠ (getE tk.elts j).Key := by
  intro he
  have h1 := hw.1 i hi
  have h2 := hw.1 j hj
  rw [he] at h1
  exact hij (Option.some.inj (h1.symm.trans h2))

/-- A key is tracked exactly when some slot holds it. -/
theorem wfK_tracked_iff {tk : Keys} (hw : wfK tk) {k : String} :
    (alookup tk.m k).isSome ↔ k ∈ tk.elts.map (·.Key) := by
  constructor
  · intro h
    rcases Option.isSome_iff_exists.mp h with ⟨i, hi⟩
    have := wfK_lookup hw hi
    exact List.mem_map.mpr ⟨getE tk.elts i, getE_mem this.1, this.2⟩
  · intro h
    rcases List.mem_map.mp h with ⟨e, he, hk⟩
    rcases mem_getE he with ⟨i, hi, rfl⟩
    rw [← hk, hw.1 i hi]
    rfl

theorem wfK_swapK {tk : Keys} {i j : Nat} (hw : wfK tk) (hij : i < j)
    (hj : j < tk.elts.length) : wfK (swapK tk i j) := by
  have hi : i < tk.elts.length := lt_trans hij hj
  have hkey : (getE tk.elts i).Key ≠ (getE tk.elts j).Key :=
    wfK_key_ne hw hi hj (Nat.ne_of_lt hij)
  have hlen : (swapK tk i j).elts.length = tk.elts.length := swapK_elts_length tk i j
  have hm : (swapK tk i j).m =
      aset (aset tk.m (getE tk.elts j).Key i) (getE tk.elts i).Key j := rfl
  refine ⟨?_, ?_, ?_⟩
  · intro t ht
    rw [hlen] at ht
    by_cases htj : t = j
    · subst htj
      rw [getE_swapK_snd hj, hm, alookup_aset_self]
    · by_cases hti : t = i
      · subst hti
        rw [getE_swapK_fst (Nat.ne_of_lt hij) hi, hm,
          alookup_aset_ne _ hkey.symm, alookup_aset_self]
      · rw [getE_swapK_other hti htj, hm,
          alookup_aset_ne _ (wfK_key_ne hw ht hi hti),
          alookup_aset_ne _ (wfK_key_ne hw ht hj htj)]
        exact hw.1 t ht
  · intro p hp
    rw [hm] at hp
    rcases mem_aset_strong (nodup_keys_aset hw.2.2) hp with rfl | ⟨hp1, hpne⟩
    · exact ⟨by omega, by rw [getE_swapK_snd hj]⟩
    · rcases mem_aset_strong hw.2.2 hp1 with rfl | ⟨hp2, hpne2⟩
      · exact ⟨by omega, by rw [getE_swapK_fst (Nat.ne_of_lt hij) hi]⟩
      · have hold := hw.2.1 p hp2
        have hpi : p.2 ≠ i := fun he => hpne (by rw [← hold.2, he])
        have hpj : p.2 ≠ j := fun he => hpne2 (by rw [← hold.2, he])
        exact ⟨by omega, by rw [getE_swapK_other hpi hpj]; exact hold.2⟩
  · rw [hm]
    exact nodup_keys_aset (nodup_keys_aset hw.2.2)

/-! ## Sift-up lemmas -/

theorem upHeapA_elts_length (fuel : Nat) : ∀ (tk : Keys) (j : Nat),
    (upHeapA fuel tk j).elts.length = tk.elts.length := by
  induction fuel with
  | zero => intro tk j; rfl
  | succ f ih =>
      intro tk j
      show (if (j - 1) / 2 = j then tk
        else if lessAt tk j ((j - 1) / 2) then
          upHeapA f (swapK tk ((j - 1) / 2) j) ((j - 1) / 2)
        else tk).elts.length = tk.elts.length
      split
      · rfl
      · split
        · rw [ih, swapK_elts_length]
        · rfl

theorem upHeap_elts_length (tk : Keys) (j : Nat) :
    (upHeap tk j).elts.length = tk.elts.length := upHeapA_elts_length _ tk j

theorem upHeapA_perm (fuel : Nat) : ∀ (tk : Keys) (j : Nat),
    j < tk.elts.length → (upHeapA fuel tk j).elts.Perm tk.elts := by
  induction fuel with
  | zero => intro tk j _; exact List.Perm.refl _
  | succ f ih =>
      intro tk j hj
      show (if (j - 1) / 2 = j then tk
        else if lessAt tk j ((j - 1) / 2) then
          upHeapA f (swapK tk ((j - 1) / 2) j) ((j - 1) / 2)
        else tk).elts.Perm tk.elts
      split
      · exact List.Perm.refl _
      · rename_i h
        split
        · have hpj : (j - 1) / 2 < j := by omega
          have h1 : ((swapK tk ((j - 1) / 2) j).elts).Perm tk.elts := swapK_perm hpj hj
          exact (ih _ _ (by rw [swapK_elts_length]; omega)).trans h1
        · exact List.Perm.refl _

theorem upHeap_perm (tk : Keys) (j : Nat) :
    j < tk.elts.length → (upHeap tk j).elts.Perm tk.elts := upHeapA_perm _ tk j

theorem wfK_upHeapA (fuel : Nat) : ∀ (tk : Keys) (j : Nat),
    wfK tk → j < tk.elts.length → wfK (upHeapA fuel tk j) := by
  induction fuel with
  | zero => intro tk j hw _; exact hw
  | succ f ih =>
      intro tk j hw hj
      show wfK (if (j - 1) / 2 = j then tk
        else if lessAt tk j ((j - 1) / 2) then
          upHeapA f (swapK tk ((j - 1) / 2) j) ((j - 1) / 2)
        else tk)
      split
      · exact hw
      · rename_i h
        split
        · have hpj : (j - 1) / 2 < j := by omega
          exact ih _ _ (wfK_swapK hw hpj hj) (by rw [swapK_elts_length]; omega)
        · exact hw

theorem wfK_upHeap (tk : Keys) (j : Nat) :
    wfK tk → j < tk.elts.length → wfK (upHeap tk j) := wfK_upHeapA _ tk j

theorem upHeapA_eq_self {tk : Keys} {j : Nat} (fuel : Nat) (hp : heapProp tk.elts)
    (hj : j < tk.elts.length) : upHeapA fuel tk j = tk := by
  cases fuel with
  | zero => rfl
  | succ f =>
      show (if (j - 1) / 2 = j then tk
        else if lessAt tk j ((j - 1) / 2) then
          upHeapA f (swapK tk ((j - 1) / 2) j) ((j - 1) / 2)
        else tk) = tk
      split
      · rfl
      · rename_i h
        rw [if_neg]
        exact hp j hj (by omega)

theorem upHeap_eq_self {tk : Keys} {j : Nat} (hp : heapProp tk.elts)
    (hj : j < tk.elts.length) : upHeap tk j = tk := upHeapA_eq_self _ hp hj

/-- Correctness of sift-up: if the array is a heap everywhere except that the
element at `j` may be smaller than its parent, and `j`'s children (if any)
dominate `j`'s parent, then `up` restores the heap property. -/
theorem heapProp_upHeapA (fuel : Nat) : ∀ (tk : Keys) (j : Nat), j < fuel →
    j < tk.elts.length →
    (∀ k, k < tk.elts.length → 0 < k → k ≠ j →
      leE (getE tk.elts ((k - 1) / 2)) (getE tk.elts k)) →
    (0 < j → ∀ k, k < tk.elts.length → (k - 1) / 2 = j →
      leE (getE tk.elts ((j - 1) / 2)) (getE tk.elts k)) →
    heapProp (upHeapA fuel tk j).elts := by
  induction fuel with
  | zero => intro tk j hfuel; omega
  | succ f ih =>
      intro tk j hfuel hj H1 H2
      show heapProp (if (j - 1) / 2 = j then tk
        else if lessAt tk j ((j - 1) / 2) then
          upHeapA f (swapK tk ((j - 1) / 2) j) ((j - 1) / 2)
        else tk).elts
      by_cases h : (j - 1) / 2 = j
      · rw [if_pos h]
        intro k hk h0
        exact H1 k hk h0 (by omega)
      · rw [if_neg h]
        by_cases hless : lessAt tk j ((j - 1) / 2)
        swap
        · rw [if_neg hless]
          intro k hk h0
          by_cases hkj : k = j
          · subst hkj
            exact leE_of_not_lessE hless
          · exact H1 k hk h0 hkj
        · rw [if_pos hless]
          have hj0 : 0 < j := by omega
          have hpj : (j - 1) / 2 < j := by omega
          have hplen : (j - 1) / 2 < tk.elts.length := by omega
          have hlen := swapK_elts_length tk ((j - 1) / 2) j
          have hBA : leE (getE tk.elts j) (getE tk.elts ((j - 1) / 2)) :=
            leE_of_lessE hless
          refine ih _ _ (by omega) (by omega) ?_ ?_
          · -- heap-except-at-parent for the swapped array
            intro k hk h0 hkp
            rw [hlen] at hk
            by_cases hkj : k = j
            · subst hkj
              rw [getE_swapK_fst (by omega) hplen, getE_swapK_snd hj]
              exact hBA
            · by_cases hpar : (k - 1) / 2 = (j - 1) / 2
              · -- sibling of j below the old parent, which now holds old elts[j]
                rw [hpar, getE_swapK_fst (by omega) hplen, getE_swapK_other hkp hkj]
                exact leE_trans hBA (hpar ▸ H1 k hk h0 hkj)
              · by_cases hparj : (k - 1) / 2 = j
                · -- child of j, whose slot now holds the old parent
                  rw [hparj, getE_swapK_snd hj, getE_swapK_other hkp hkj]
                  exact H2 hj0 k hk hparj
                · rw [getE_swapK_other hkp hkj, getE_swapK_other hpar hparj]
                  exact H1 k hk h0 hkj
          · -- children of the old parent slot dominate the grandparent
            intro hp0 k hk hpar
            rw [hlen] at hk
            have hgp : ((j - 1) / 2 - 1) / 2 ≠ (j - 1) / 2 := by omega
            have hgj : ((j - 1) / 2 - 1) / 2 ≠ j := by omega
            rw [getE_swapK_other hgp hgj]
            have hGA : leE (getE tk.elts (((j - 1) / 2 - 1) / 2))
                (getE tk.elts ((j - 1) / 2)) :=
              H1 ((j - 1) / 2) hplen hp0 (by omega)
            by_cases hkj : k = j
            · subst hkj
              rw [getE_swapK_snd hj]
              exact hGA
            · have hkp : k ≠ (j - 1) / 2 := by omega
              rw [getE_swapK_other hkp hkj]
              exact leE_trans hGA (hpar ▸ H1 k hk (by omega) hkj)

theorem heapProp_upHeap (tk : Keys) (j : Nat) :
    j < tk.elts.length →
    (∀ k, k < tk.elts.length → 0 < k → k ≠ j →
      leE (getE tk.elts ((k - 1) / 2)) (getE tk.elts k)) →
    (0 < j → ∀ k, k < tk.elts.length → (k - 1) / 2 = j →
      leE (getE tk.elts ((j - 1) / 2)) (getE tk.elts k)) →
    heapProp (upHeap tk j).elts :=
  fun hj H1 H2 => heapProp_upHeapA (j + 1) tk j (Nat.lt_succ_self j) hj H1 H2

/-! ## Sift-down lemmas -/

theorem downChild_parent (tk : Keys) (i n : Nat) : (downChild tk i n - 1) / 2 = i := by
  unfold downChild; split <;> omega

/-- The chosen child is the `leE`-least of `i`'s children. -/
theorem downChild_min (tk : Keys) {i n : Nat} (_h1 : 2 * i + 1 < n) {k : Nat}
    (hk : k < n) (h0 : 0 < k) (hpar : (k - 1) / 2 = i) :
    leE (getE tk.elts (downChild tk i n)) (getE tk.elts k) := by
  have hk12 : k = 2 * i + 1 ∨ k = 2 * i + 2 := by omega
  unfold downChild
  split
  · rename_i hcond
    rcases hk12 with rfl | rfl
    · exact leE_of_lessE hcond.2
    · exact leE_refl _
  · rename_i hcond
    rcases hk12 with rfl | rfl
    · exact leE_refl _
    · have : ¬ lessAt tk (2 * i + 2) (2 * i + 1) := fun hl => hcond ⟨hk, hl⟩
      exact leE_of_not_lessE this

theorem downLoopA_elts_length (fuel : Nat) : ∀ (tk : Keys) (i n : Nat),
    ((downLoopA fuel tk i n).1).elts.length = tk.elts.length := by
  induction fuel with
  | zero => intro tk i n; rfl
  | succ f ih =>
      intro tk i n
      show ((if 2 * i + 1 < n then
          if lessAt tk (downChild tk i n) i then
            downLoopA f (swapK tk i (downChild tk i n)) (downChild tk i n) n
          else (tk, i)
        else (tk, i)).1).elts.length = tk.elts.length
      split
      · split
        · rw [ih, swapK_elts_length]
        · rfl
      · rfl

theorem downLoop_elts_length (tk : Keys) (i n : Nat) :
    ((downLoop tk i n).1).elts.length = tk.elts.length :=
  downLoopA_elts_length _ tk i n

theorem downLoopA_perm (fuel : Nat) : ∀ (tk : Keys) (i n : Nat),
    n = tk.elts.length → ((downLoopA fuel tk i n).1).elts.Perm tk.elts := by
  induction fuel with
  | zero => intro tk i n _; exact List.Perm.refl _
  | succ f ih =>
      intro tk i n hn
      show ((if 2 * i + 1 < n then
          if lessAt tk (downChild tk i n) i then
            downLoopA f (swapK tk i (downChild tk i n)) (downChild tk i n) n
          else (tk, i)
        else (tk, i)).1).elts.Perm tk.elts
      split
      · rename_i h
        split
        · have hcn : downChild tk i n < n := downChild_lt h
          have hic : i < downChild tk i n := downChild_gt tk i n
          have hs : ((swapK tk i (downChild tk i n)).elts).Perm tk.elts :=
            swapK_perm hic (by omega)
          exact (ih _ _ _ (by rw [swapK_elts_length]; omega)).trans hs
        · exact List.Perm.refl _
      · exact List.Perm.refl _

theorem downLoop_perm (tk : Keys) (i n : Nat) :
    n = tk.elts.length → ((downLoop tk i n).1).elts.Perm tk.elts :=
  downLoopA_perm _ tk i n

theorem wfK_downLoopA (fuel : Nat) : ∀ (tk : Keys) (i n : Nat),
    n = tk.elts.length → wfK tk → wfK (downLoopA fuel tk i n).1 := by
  induction fuel with
  | zero => intro tk i n _ hw; exact hw
  | succ f ih =>
      intro tk i n hn hw
      show wfK ((if 2 * i + 1 < n then
          if lessAt tk (downChild tk i n) i then
            downLoopA f (swapK tk i (downChild tk i n)) (downChild tk i n) n
          else (tk, i)
        else (tk, i)).1)
      split
      · rename_i h
        split
        · have hcn : downChild tk i n < n := downChild_lt h
          have hic : i < downChild tk i n := downChild_gt tk i n
          exact ih _ _ _ (by rw [swapK_elts_length]; omega) (wfK_swapK hw hic (by omega))
        · exact hw
      · exact hw

theorem wfK_downLoop (tk : Keys) (i n : Nat) :
    n = tk.elts.length → wfK tk → wfK (downLoop tk i n).1 :=
  wfK_downLoopA _ tk i n

/-- Correctness of sift-down: if the array is a heap everywhere except that
the element at `i` may be greater than its children, and `i`'s children
dominate `i`'s parent, then `down` restores the heap property. -/
theorem heapProp_downLoopA (fuel : Nat) : ∀ (tk : Keys) (i n : Nat),
    n = tk.elts.length → n ≤ fuel + i →
    (∀ k, k < n → 0 < k → (k - 1) / 2 ≠ i →
      leE (getE tk.elts ((k - 1) / 2)) (getE tk.elts k)) →
    (0 < i → ∀ k, k < n → (k - 1) / 2 = i →
      leE (getE tk.elts ((i - 1) / 2)) (getE tk.elts k)) →
    heapProp ((downLoopA fuel tk i n).1).elts := by
  induction fuel with
  | zero =>
      -- out of fuel only when `i` is at or beyond the end: no pair below it
      intro tk i n hn hfuel D1 _
      show heapProp tk.elts
      intro k hk h0
      rw [← hn] at hk
      exact D1 k hk h0 (by omega)
  | succ f ih =>
      intro tk i n hn hfuel D1 D2
      show heapProp ((if 2 * i + 1 < n then
          if lessAt tk (downChild tk i n) i then
            downLoopA f (swapK tk i (downChild tk i n)) (downChild tk i n) n
          else (tk, i)
        else (tk, i)).1).elts
      by_cases h : 2 * i + 1 < n
      swap
      · -- no children: nothing below i, so the exception is vacuous
        rw [if_neg h]
        intro k hk h0
        rw [← hn] at hk
        by_cases hpar : (k - 1) / 2 = i
        · omega
        · exact D1 k hk h0 hpar
      · rw [if_pos h]
        by_cases hless : lessAt tk (downChild tk i n) i
        swap
        · -- the least child is not below i: already a heap
          rw [if_neg hless]
          intro k hk h0
          rw [← hn] at hk
          by_cases hpar : (k - 1) / 2 = i
          · rw [hpar]
            exact leE_trans (leE_of_not_lessE hless) (downChild_min tk h hk h0 hpar)
          · exact D1 k hk h0 hpar
        · rw [if_pos hless]
          have hcn : downChild tk i n < n := downChild_lt h
          have hic : i < downChild tk i n := downChild_gt tk i n
          have hcpar : (downChild tk i n - 1) / 2 = i := downChild_parent tk i n
          have hilen : i < tk.elts.length := by omega
          have hclen : downChild tk i n < tk.elts.length := by omega
          refine ih _ _ _ (by rw [swapK_elts_length]; omega) (by omega) ?_ ?_
          · intro k hk h0 hkpc
            by_cases hki : k = i
            · subst hki
              have hpi1 : (k - 1) / 2 ≠ k := by omega
              have hpi2 : (k - 1) / 2 ≠ downChild tk k n := by omega
              rw [getE_swapK_other hpi1 hpi2,
                getE_swapK_fst (by omega) hilen]
              exact D2 h0 (downChild tk k n) hcn hcpar
            · by_cases hkc : k = downChild tk i n
              · subst hkc
                rw [hcpar, getE_swapK_fst (by omega) hilen, getE_swapK_snd hclen]
                exact leE_of_lessE hless
              · by_cases hpar : (k - 1) / 2 = i
                · rw [hpar, getE_swapK_fst (by omega) hilen, getE_swapK_other hki hkc]
                  exact downChild_min tk h hk h0 hpar
                · rw [getE_swapK_other hki hkc, getE_swapK_other hpar hkpc]
                  exact D1 k hk h0 hpar
          · intro _ k hk hpark
            rw [hcpar, getE_swapK_fst (by omega) hilen]
            have hki : k ≠ i := by omega
            have hkc : k ≠ downChild tk i n := by omega
            rw [getE_swapK_other hki hkc]
            have := D1 k hk (by omega) (by omega)
            rw [hpark] at this
            exact this

theorem heapProp_downLoop (tk : Keys) (i n : Nat) :
    n = tk.elts.length →
    (∀ k, k < n → 0 < k → (k - 1) / 2 ≠ i →
      leE (getE tk.elts ((k - 1) / 2)) (getE tk.elts k)) →
    (0 < i → ∀ k, k < n → (k - 1) / 2 = i →
      leE (getE tk.elts ((i - 1) / 2)) (getE tk.elts k)) →
    heapProp ((downLoop tk i n).1).elts :=
  fun hn D1 D2 => heapProp_downLoopA (n - i) tk i n hn (by omega) D1 D2

/-! ## heap.Fix and heap.Push lemmas -/

theorem heapFix_elts_length (tk : Keys) (i : Nat) :
    (heapFix tk i).elts.length = tk.elts.length := by
  unfold heapFix
  split
  · exact downLoop_elts_length tk i _
  · rw [upHeap_elts_length, downLoop_elts_length]

theorem heapFix_perm (tk : Keys) (i : Nat) (hi : i < tk.elts.length) :
    (heapFix tk i).elts.Perm tk.elts := by
  unfold heapFix
  split
  · exact downLoop_perm tk i _ rfl
  · exact (upHeap_perm _ i (by rw [downLoop_elts_length]; exact hi)).trans
      (downLoop_perm tk i _ rfl)

theorem wfK_heapFix (tk : Keys) (i : Nat) (hw : wfK tk) (hi : i < tk.elts.length) :
    wfK (heapFix tk i) := by
  unfold heapFix
  split
  · exact wfK_downLoop tk i _ rfl hw
  · exact wfK_upHeap _ i (wfK_downLoop tk i _ rfl hw)
      (by rw [downLoop_elts_length]; exact hi)

/-- `Fix` restores the heap when the element at `i` may only violate order
with respect to its children (for instance after its count increased). -/
theorem heapProp_heapFix_down (tk : Keys) (i : Nat) (hi : i < tk.elts.length)
    (D1 : ∀ k, k < tk.elts.length → 0 < k → (k - 1) / 2 ≠ i →
      leE (getE tk.elts ((k - 1) / 2)) (getE tk.elts k))
    (D2 : 0 < i → ∀ k, k < tk.elts.length → (k - 1) / 2 = i →
      leE (getE tk.elts ((i - 1) / 2)) (getE tk.elts k)) :
    heapProp (heapFix tk i).elts := by
  have hp : heapProp ((downLoop tk i tk.elts.length).1).elts :=
    heapProp_downLoop tk i _ rfl D1 D2
  unfold heapFix
  split
  · exact hp
  · rw [upHeap_eq_self hp (by rw [downLoop_elts_length]; exact hi)]
    exact hp

/-- `Fix` restores the heap when the element at `i` may only violate order
with respect to its parent (for instance after its count decreased):
`down` does not move, and `up` repairs the array. -/
theorem heapProp_heapFix_up (tk : Keys) (i : Nat) (hi : i < tk.elts.length)
    (HB : ∀ k, k < tk.elts.length → (k - 1) / 2 = i →
      leE (getE tk.elts i) (getE tk.elts k))
    (H1 : ∀ k, k < tk.elts.length → 0 < k → k ≠ i →
      leE (getE tk.elts ((k - 1) / 2)) (getE tk.elts k))
    (H2 : 0 < i → ∀ k, k < tk.elts.length → (k - 1) / 2 = i →
      leE (getE tk.elts ((i - 1) / 2)) (getE tk.elts k)) :
    heapProp (heapFix tk i).elts := by
  have hd : downLoop tk i tk.elts.length = (tk, i) := by
    show downLoopA (tk.elts.length - i) tk i tk.elts.length = (tk, i)
    cases hfe : tk.elts.length - i with
    | zero => rfl
    | succ f =>
        show (if 2 * i + 1 < tk.elts.length then
            if lessAt tk (downChild tk i tk.elts.length) i then
              downLoopA f (swapK tk i (downChild tk i tk.elts.length))
                (downChild tk i tk.elts.length) tk.elts.length
            else (tk, i)
          else (tk, i)) = (tk, i)
        split
        · rename_i h
          rw [if_neg]
          intro hl
          exact HB (downChild tk i tk.elts.length) (downChild_lt h)
            (downChild_parent tk i _) hl
        · rfl
  unfold heapFix
  rw [hd]
  show heapProp (if i < i then tk else upHeap tk i).elts
  rw [if_neg (lt_irrefl i)]
  exact heapProp_upHeap tk i hi H1 H2

theorem heapPush_elts_length (tk : Keys) (e : Element) :
    (heapPush tk e).elts.length = tk.elts.length + 1 := by
  unfold heapPush
  rw [upHeap_elts_length]
  simp

theorem heapPush_perm (tk : Keys) (e : Element) :
    ((heapPush tk e).elts).Perm (tk.elts ++ [e]) := by
  unfold heapPush
  exact upHeap_perm _ _ (by simp)

theorem wfK_heapPush {tk : Keys} {e : Element} (hw : wfK tk)
    (hfresh : alookup tk.m e.Key = none) : wfK (heapPush tk e) := by
  have hw1 : wfK (Keys.mk (aset tk.m e.Key tk.elts.length) (tk.elts ++ [e])) := by
    refine ⟨?_, ?_, nodup_keys_aset hw.2.2⟩
    · intro t ht
      simp only [List.length_append, List.length_cons, List.length_nil] at ht
      by_cases hte : t = tk.elts.length
      · subst hte
        rw [getE_append_last, alookup_aset_self]
      · have htl : t < tk.elts.length := by omega
        rw [getE_append_lt htl]
        have hne : (getE tk.elts t).Key ≠ e.Key := by
          intro he
          have := hw.1 t htl
          rw [he, hfresh] at this
          exact Option.noConfusion this
        rw [alookup_aset_ne _ hne]
        exact hw.1 t htl
    · intro p hp
      rcases mem_aset_strong hw.2.2 hp with rfl | ⟨hp1, _⟩
      · refine ⟨by simp, ?_⟩
        show (getE (tk.elts ++ [e]) tk.elts.length).Key = e.Key
        rw [getE_append_last]
      · have hold := hw.2.1 p hp1
        refine ⟨by simp; omega, ?_⟩
        rw [getE_append_lt hold.1]
        exact hold.2
  exact wfK_upHeap _ _ hw1 (by simp)

theorem heapProp_heapPush {tk : Keys} {e : Element} (hp : heapProp tk.elts) :
    heapProp (heapPush tk e).elts := by
  unfold heapPush
  apply heapProp_upHeap
  · simp
  · intro k hk h0 hkj
    simp only [List.length_append, List.length_cons, List.length_nil] at hk hkj
    have hklen : k < tk.elts.length := by omega
    rw [getE_append_lt hklen, getE_append_lt (by omega)]
    exact hp k hklen h0
  · intro hj0 k hk hpar
    simp only [List.length_append, List.length_cons, List.length_nil] at hj0 hk hpar
    omega

/-! ## Root minimality -/

theorem heapProp_root_le {l : List Element} (hp : heapProp l) :
    ∀ i, i < l.length → leE (getE l 0) (getE l i) := by
  intro i
  induction i using Nat.strong_induction_on with
  | _ i ih =>
      intro hi
      rcases Nat.eq_zero_or_pos i with h | h0
      · subst h
        exact leE_refl _
      · exact leE_trans (ih ((i - 1) / 2) (by omega) (by omega)) (hp i hi h0)

theorem heapProp_root_le_mem {l : List Element} (hp : heapProp l) {e : Element}
    (he : e ∈ l) : leE (getE l 0) e := by
  rcases mem_getE he with ⟨i, hi, rfl⟩
  exact heapProp_root_le hp i hi

/-! ## Path equations for `Insert` -/

/-- The element written by the tracked path of `Insert`. -/
theorem insert_eq_tracked (hash : String → Nat) (s : Stream) (x : String) (w : Int)
    (idx : Nat) (h : alookup s.k.m x = some idx) :
    insert hash s x w =
      (getE (s.k.elts.set idx
          { Key := (getE s.k.elts idx).Key,
            Count := (getE s.k.elts idx).Count + w,
            Error := (getE s.k.elts idx).Error }) idx,
        { s with k := (heapFix
          { m := s.k.m, elts := (s.k.elts.set idx
              { Key := (getE s.k.elts idx).Key,
                Count := (getE s.k.elts idx).Count + w,
                Error := (getE s.k.elts idx).Error }) } idx) }) := by
  simp only [insert, h]

theorem insert_eq_push (hash : String → Nat) (s : Stream) (x : String) (w : Int)
    (h : alookup s.k.m x = none)
    (hfree : (s.k.elts.length : Int) < s.n * bufMultiplier) :
    insert hash s x w =
      ({ Key := x, Count := w, Error := 0 },
        { s with k := heapPush s.k { Key := x, Count := w, Error := 0 } }) := by
  simp only [insert, h]
  rw [if_pos hfree]

theorem insert_eq_filter (hash : String → Nat) (s : Stream) (x : String) (w : Int)
    (h : alookup s.k.m x = none)
    (hfull : ¬ (s.k.elts.length : Int) < s.n * bufMultiplier)
    (hsmall : s.alphas.getD (reduce (hash x) (s.alphas.length : Int)) 0 + w <
      (getE s.k.elts 0).Count) :
    insert hash s x w =
      ({ Key := x,
          Count := s.alphas.getD (reduce (hash x) (s.alphas.length : Int)) 0 + w,
          Error := s.alphas.getD (reduce (hash x) (s.alphas.length : Int)) 0 },
        { s with alphas := (s.alphas.set (reduce (hash x) (s.alphas.length : Int))
              (s.alphas.getD (reduce (hash x) (s.alphas.length : Int)) 0 + w)) }) := by
  simp only [insert, h]
  rw [if_neg hfull, if_pos hsmall]

theorem insert_eq_evict (hash : String → Nat) (s : Stream) (x : String) (w : Int)
    (h : alookup s.k.m x = none)
    (hfull : ¬ (s.k.elts.length : Int) < s.n * bufMultiplier)
    (hbig : ¬ s.alphas.getD (reduce (hash x) (s.alphas.length : Int)) 0 + w <
      (getE s.k.elts 0).Count) :
    insert hash s x w =
      ({ Key := x,
          Count := (s.alphas.set
            (reduce (hash (getE s.k.elts 0).Key) (s.alphas.length : Int))
            (getE s.k.elts 0).Count).getD
              (reduce (hash x) (s.alphas.length : Int)) 0 + w,
          Error := (s.alphas.set
            (reduce (hash (getE s.k.elts 0).Key) (s.alphas.length : Int))
            (getE s.k.elts 0).Count).getD
              (reduce (hash x) (s.alphas.length : Int)) 0 },
        { s with
          k := (heapFix
            { m := (aset (adel s.k.m (getE s.k.elts 0).Key) x 0),
              elts := (s.k.elts.set 0
                { Key := x,
                  Count := ((s.alphas.set
                    (reduce (hash (getE s.k.elts 0).Key) (s.alphas.length : Int))
                    (getE s.k.elts 0).Count).getD
                      (reduce (hash x) (s.alphas.length : Int)) 0 + w),
                  Error := ((s.alphas.set
                    (reduce (hash (getE s.k.elts 0).Key) (s.alphas.length : Int))
                    (getE s.k.elts 0).Count).getD
                      (reduce (hash x) (s.alphas.length : Int)) 0) }) } 0),
          alphas := (s.alphas.set
            (reduce (hash (getE s.k.elts 0).Key) (s.alphas.length : Int))
            (getE s.k.elts 0).Count) }) := by
  simp only [insert, h]
  rw [if_neg hfull, if_neg hbig]

/-! ## Invariant preservation by `Insert` -/

theorem leE_bump {e : Element} {w : Int} (hw : 0 ≤ w) :
    leE e { Key := e.Key, Count := e.Count + w, Error := e.Error } := by
  rw [leE_iff]
  simp only []
  omega

theorem leE_bump_neg {e : Element} {w : Int} (hw : w ≤ 0) :
    leE { Key := e.Key, Count := e.Count + w, Error := e.Error } e := by
  rw [leE_iff]
  simp only []
  omega

/-- The tracked path's in-place count update keeps the map consistent. -/
theorem wfK_bump (tk : Keys) (idx : Nat) (w : Int) (hw : wfK tk)
    (hidx : idx < tk.elts.length) :
    wfK { m := tk.m, elts := (tk.elts.set idx
      { Key := (getE tk.elts idx).Key,
        Count := (getE tk.elts idx).Count + w,
        Error := (getE tk.elts idx).Error }) } := by
  refine ⟨?_, ?_, hw.2.2⟩
  · intro t ht
    dsimp only at ht ⊢
    rw [length_setL] at ht
    by_cases hti : t = idx
    · subst hti
      rw [getE_set_self hidx]
      exact hw.1 t ht
    · rw [getE_set_ne hti]
      exact hw.1 t ht
  · intro p hpm
    dsimp only at hpm ⊢
    have hold := hw.2.1 p hpm
    rw [length_setL]
    refine ⟨hold.1, ?_⟩
    by_cases hpi : p.2 = idx
    · rw [hpi, getE_set_self hidx]
      rw [← hold.2, hpi]
    · rw [getE_set_ne hpi]
      exact hold.2

/-- The tracked path's count update followed by `Fix` keeps the heap
property, whatever the sign of the added weight. -/
theorem heapProp_bump (M : List (String × Nat)) (l : List Element) (idx : Nat)
    (w : Int) (hp : heapProp l) (hidx : idx < l.length) :
    heapProp (heapFix { m := M, elts := (l.set idx
      { Key := (getE l idx).Key,
        Count := (getE l idx).Count + w,
        Error := (getE l idx).Error }) } idx).elts := by
  have hgp : ∀ k, k < l.length → (k - 1) / 2 = idx → 0 < k → k ≠ idx →
      leE (getE l idx) (getE l k) := by
    intro k hk hpar h0 _
    have := hp k hk h0
    rw [hpar] at this
    exact this
  rcases le_or_lt 0 w with hw0 | hw0
  · apply heapProp_heapFix_down
    · dsimp only
      rw [length_setL]
      exact hidx
    · intro k hk h0 hpar
      dsimp only at hk ⊢
      rw [length_setL] at hk
      by_cases hki : k = idx
      · subst hki
        rw [getE_set_ne hpar, getE_set_self hidx]
        exact leE_trans (hp k hk h0) (leE_bump hw0)
      · rw [getE_set_ne hpar, getE_set_ne hki]
        exact hp k hk h0
    · intro h0 k hk hpar
      dsimp only at hk ⊢
      rw [length_setL] at hk
      have hki : k ≠ idx := by omega
      have hgpp : (idx - 1) / 2 ≠ idx := by omega
      rw [getE_set_ne hgpp, getE_set_ne hki]
      have h2 := hp k hk (by omega)
      rw [hpar] at h2
      exact leE_trans (hp idx hidx h0) h2
  · apply heapProp_heapFix_up
    · dsimp only
      rw [length_setL]
      exact hidx
    · intro k hk hpar
      dsimp only at hk ⊢
      rw [length_setL] at hk
      by_cases hki : k = idx
      · subst hki
        exact leE_refl _
      · have h0 : 0 < k := by omega
        rw [getE_set_self hidx, getE_set_ne hki]
        exact leE_trans (leE_bump_neg (le_of_lt hw0)) (hgp k hk hpar h0 hki)
    · intro k hk h0 hki
      dsimp only at hk ⊢
      rw [length_setL] at hk
      by_cases hpar : (k - 1) / 2 = idx
      · rw [hpar, getE_set_self hidx, getE_set_ne hki]
        exact leE_trans (leE_bump_neg (le_of_lt hw0)) (hgp k hk hpar h0 hki)
      · rw [getE_set_ne hpar, getE_set_ne hki]
        exact hp k hk h0
    · intro h0 k hk hpar
      dsimp only at hk ⊢
      rw [length_setL] at hk
      have hki : k ≠ idx := by omega
      have hgpp : (idx - 1) / 2 ≠ idx := by omega
      rw [getE_set_ne hgpp, getE_set_ne hki]
      have h2 := hp k hk (by omega)
      rw [hpar] at h2
      exact leE_trans (hp idx hidx h0) h2

/-- The eviction path's map surgery (bank, delete, reinstall at the root)
keeps the map consistent. -/
theorem wfK_evict (tk : Keys) (x : String) (eN : Element) (hw : wfK tk)
    (h0 : 0 < tk.elts.length) (hu : alookup tk.m x = none) (hkey : eN.Key = x) :
    wfK { m := (aset (adel tk.m (getE tk.elts 0).Key) x 0),
          elts := (tk.elts.set 0 eN) } := by
  refine ⟨?_, ?_, nodup_keys_aset (nodup_keys_adel hw.2.2)⟩
  · intro t ht
    dsimp only at ht ⊢
    rw [length_setL] at ht
    by_cases ht0 : t = 0
    · subst ht0
      rw [getE_set_self h0, hkey, alookup_aset_self]
    · rw [getE_set_ne ht0]
      have hxne : (getE tk.elts t).Key ≠ x := by
        intro he
        have := hw.1 t ht
        rw [he, hu] at this
        exact Option.noConfusion this
      have hmne : (getE tk.elts t).Key ≠ (getE tk.elts 0).Key :=
        wfK_key_ne hw ht h0 ht0
      rw [alookup_aset_ne _ hxne, alookup_adel_ne hmne]
      exact hw.1 t ht
  · intro p hpm
    dsimp only at hpm ⊢
    rw [length_setL]
    rcases mem_aset_strong (nodup_keys_adel hw.2.2) hpm with rfl | ⟨hp1, hpx⟩
    · exact ⟨h0, by rw [getE_set_self h0, hkey]⟩
    · obtain ⟨hp2, hpm2⟩ := mem_adel hp1
      have hold := hw.2.1 p hp2
      have hp0 : p.2 ≠ 0 := by
        intro he
        exact hpm2 (by rw [← hold.2, he])
      exact ⟨hold.1, by rw [getE_set_ne hp0]; exact hold.2⟩

/-- Replacing the root and calling `Fix(0)` restores the heap property. -/
theorem heapProp_replace_root (M : List (String × Nat)) (l : List Element)
    (eN : Element) (hp : heapProp l) (h0 : 0 < l.length) :
    heapProp (heapFix { m := M, elts := (l.set 0 eN) } 0).elts := by
  apply heapProp_heapFix_down
  · dsimp only
    rw [length_setL]
    exact h0
  · intro k hk hk0 hpar
    dsimp only at hk ⊢
    rw [length_setL] at hk
    rw [getE_set_ne hpar, getE_set_ne (by omega : k ≠ 0)]
    exact hp k hk hk0
  · intro h00
    exact absurd h00 (by omega)

/-- `Insert` preserves the heap and lockstep-map invariants. -/
theorem insert_preserves_inv (hash : String → Nat) (s : Stream) (x : String)
    (w : Int) (hn : 1 ≤ s.n) (hw : wfK s.k) (hp : heapProp s.k.elts) :
    wfK ((insert hash s x w).2).k ∧ heapProp ((insert hash s x w).2).k.elts := by
  cases hcase : alookup s.k.m x with
  | some idx =>
      obtain ⟨hidx, hkeyx⟩ := wfK_lookup hw hcase
      rw [insert_eq_tracked hash s x w idx hcase]
      exact ⟨wfK_heapFix _ idx (wfK_bump s.k idx w hw hidx)
          (by dsimp only; rw [length_setL]; exact hidx),
        heapProp_bump s.k.m s.k.elts idx w hp hidx⟩
  | none =>
      by_cases hfree : (s.k.elts.length : Int) < s.n * bufMultiplier
      · rw [insert_eq_push hash s x w hcase hfree]
        exact ⟨wfK_heapPush hw hcase, heapProp_heapPush hp⟩
      · by_cases hsmall : s.alphas.getD (reduce (hash x) (s.alphas.length : Int)) 0
            + w < (getE s.k.elts 0).Count
        · rw [insert_eq_filter hash s x w hcase hfree hsmall]
          exact ⟨hw, hp⟩
        · rw [insert_eq_evict hash s x w hcase hfree hsmall]
          have hlen0 : 0 < s.k.elts.length := by
            simp only [bufMultiplier] at hfree
            omega
          constructor
          · apply wfK_heapFix
            · apply wfK_evict s.k x _ hw hlen0 hcase
              rfl
            · dsimp only
              rw [length_setL]
              exact hlen0
          · exact heapProp_replace_root _ s.k.elts _ hp hlen0

/-! ## Sorting model lemmas -/

theorem insD_perm (e : Element) (l : List Element) : (insD e l).Perm (e :: l) := by
  induction l with
  | nil => exact List.Perm.refl _
  | cons a t ih =>
      unfold insD
      split
      · exact List.Perm.refl _
      · exact (ih.cons a).trans (List.Perm.swap e a t)

theorem sortD_perm (l : List Element) : (sortD l).Perm l := by
  induction l with
  | nil => exact List.Perm.refl _
  | cons a t ih => exact (insD_perm a (sortD t)).trans (ih.cons a)

theorem insD_sorted {e : Element} {l : List Element} (hs : l.Pairwise leD) :
    (insD e l).Pairwise leD := by
  induction l with
  | nil => simp [insD]
  | cons a t ih =>
      rcases List.pairwise_cons.mp hs with ⟨ha, ht⟩
      unfold insD
      split
      · rename_i hle
        refine List.pairwise_cons.mpr ⟨?_, hs⟩
        intro b hb
        rcases List.mem_cons.mp hb with rfl | hb2
        · exact hle
        · exact leD_trans hle (ha b hb2)
      · rename_i hgt
        have hae : leD a e := (leD_total e a).resolve_left hgt
        refine List.pairwise_cons.mpr ⟨?_, ih ht⟩
        intro b hb
        rcases List.mem_cons.mp ((insD_perm e t).mem_iff.mp hb) with rfl | hb2
        · exact hae
        · exact ha b hb2

theorem sortD_sorted (l : List Element) : (sortD l).Pairwise leD := by
  induction l with
  | nil => simp [sortD]
  | cons a t ih => exact insD_sorted ih

/-! ## Rebuilding a heap by repeated pushes -/

theorem wfK_empty : wfK { m := [], elts := [] } := by
  refine ⟨?_, ?_, ?_⟩
  · intro i hi
    simp at hi
  · intro p hp
    simp at hp
  · simp

theorem heapProp_nil : heapProp ([] : List Element) := by
  intro j hj h0
  simp at hj

theorem foldl_heapPush_inv (l : List Element) (acc : Keys) (hw : wfK acc)
    (hp : heapProp acc.elts) (hfresh : ∀ e ∈ l, alookup acc.m e.Key = none)
    (hnd : (l.map (·.Key)).Nodup) :
    wfK (l.foldl heapPush acc) ∧ heapProp (l.foldl heapPush acc).elts ∧
      ((l.foldl heapPush acc).elts).Perm (acc.elts ++ l) := by
  induction l generalizing acc with
  | nil => exact ⟨hw, hp, by simp⟩
  | cons e t ih =>
      have hfe : alookup acc.m e.Key = none := hfresh e (List.mem_cons_self e t)
      have hfresht : ∀ f ∈ t, alookup acc.m f.Key = none :=
        fun f hf => hfresh f (List.mem_cons_of_mem e hf)
      have hw' := wfK_heapPush hw hfe
      have hp' := heapProp_heapPush (e := e) hp
      have hperm : ((heapPush acc e).elts).Perm (acc.elts ++ [e]) := heapPush_perm acc e
      simp only [List.map_cons, List.nodup_cons] at hnd
      have hfresh' : ∀ f ∈ t, alookup (heapPush acc e).m f.Key = none := by
        intro f hf
        have h1 : f.Key ∉ (heapPush acc e).elts.map (·.Key) := by
          intro hmem
          have h2 : f.Key ∈ (acc.elts ++ [e]).map (·.Key) :=
            (hperm.map (·.Key)).mem_iff.mp hmem
          simp only [List.map_append, List.mem_append, List.map_cons, List.map_nil,
            List.mem_cons, List.not_mem_nil, or_false] at h2
          rcases h2 with h2 | h2
          · have h3 := (wfK_tracked_iff hw).mpr h2
            rw [hfresht f hf] at h3
            simp at h3
          · exact hnd.1 (h2 ▸ List.mem_map.mpr ⟨f, hf, rfl⟩)
        exact Option.not_isSome_iff_eq_none.mp ((wfK_tracked_iff hw').not.mpr h1)
      obtain ⟨hw2, hp2, hperm2⟩ := ih (heapPush acc e) hw' hp' hfresh' hnd.2
      refine ⟨hw2, hp2, ?_⟩
      have h4 : ((t.foldl heapPush (heapPush acc e)).elts).Perm
          ((acc.elts ++ [e]) ++ t) := hperm2.trans (hperm.append_right t)
      simpa [List.append_assoc] using h4

/-! ## Merge characterization -/

theorem merge_eq_ok (hash : String → Nat) (s other : Stream) (h : s.n = other.n) :
    merge hash s other = Except.ok
      ({ n := s.n,
         k := ((mergedElts hash s other).foldl heapPush { m := [], elts := [] }),
         alphas := ((List.zipWith (· + ·) s.alphas other.alphas) ++
             s.alphas.drop other.alphas.length) }) := by
  unfold merge
  rw [if_neg (fun hne => hne h)]

theorem combineE_key {hash : String → Nat} {s o : Stream} {k : String} {e : Element}
    (h : combineE hash s o k = some e) : e.Key = k := by
  unfold combineE at h
  rcases h1 : alookup s.k.m k with _ | i1 <;> rcases h2 : alookup o.k.m k with _ | i2 <;>
    rw [h1, h2] at h <;> simp only [] at h
  · exact Option.noConfusion h
  · obtain rfl := Option.some.inj h
    rfl
  · obtain rfl := Option.some.inj h
    rfl
  · obtain rfl := Option.some.inj h
    rfl

theorem keys_filterMap_combine_sublist (hash : String → Nat) (s o : Stream)
    (ks : List String) :
    (((ks.filterMap (combineE hash s o)).map (·.Key)).Sublist ks) := by
  induction ks with
  | nil => simp
  | cons k t ih =>
      cases hc : combineE hash s o k with
      | none =>
          rw [List.filterMap_cons_none hc]
          exact ih.cons k
      | some e =>
          rw [List.filterMap_cons_some hc]
          simp only [List.map_cons, combineE_key hc]
          exact ih.cons₂ k

theorem mergedElts_keys_nodup (hash : String → Nat) (s o : Stream) :
    (((mergedElts hash s o).map (·.Key)).Nodup) := by
  have h1 : ((((unionKeys s o).filterMap (combineE hash s o)).map (·.Key)).Nodup) :=
    (keys_filterMap_combine_sublist hash s o _).nodup (List.nodup_dedup _)
  have h2 : (((sortD ((unionKeys s o).filterMap (combineE hash s o))).map
      (·.Key)).Nodup) := (((sortD_perm _).map _).nodup_iff).mpr h1
  unfold mergedElts
  split
  · exact ((List.take_sublist _ _).map _).nodup h2
  · exact h2

theorem wfK_nodup_slots {tk : Keys} (hw : wfK tk) {i j : Nat}
    (hi : i < tk.elts.length) (hj : j < tk.elts.length)
    (hk : (getE tk.elts i).Key = (getE tk.elts j).Key) : i = j := by
  by_contra hij
  exact wfK_key_ne hw hi hj hij hk

/-- C8: after every Insert and every successful Merge the monitored set
satisfies the three structural invariants at once: the element array is a
min-heap on Count ascending with ties broken by Error descending; the
key-to-slot map is in lockstep with the array (every slot's key maps to that
slot, and every map entry points at the slot holding its key); and no key
occupies two slots. -/
theorem claim_c8_structural_invariants (hash : String → Nat) (s other : Stream)
    (x : String) (w : Int) (hn : 1 ≤ s.n) (hw : wfK s.k) (hp : heapProp s.k.elts) :
    (wfK ((insert hash s x w).2).k ∧ heapProp ((insert hash s x w).2).k.elts ∧
      (∀ i j, i < ((insert hash s x w).2).k.elts.length →
        j < ((insert hash s x w).2).k.elts.length →
        (getE ((insert hash s x w).2).k.elts i).Key =
          (getE ((insert hash s x w).2).k.elts j).Key → i = j)) ∧
    (∀ s', merge hash s other = Except.ok s' →
      wfK s'.k ∧ heapProp s'.k.elts ∧
      (∀ i j, i < s'.k.elts.length → j < s'.k.elts.length →
        (getE s'.k.elts i).Key = (getE s'.k.elts j).Key → i = j)) := by
  have hins := insert_preserves_inv hash s x w hn hw hp
  constructor
  · exact ⟨hins.1, hins.2, fun i j hi hj hk => wfK_nodup_slots hins.1 hi hj hk⟩
  · intro s' hok
    by_cases hnn : s.n = other.n
    · rw [merge_eq_ok hash s other hnn] at hok
      obtain rfl := (Except.ok.inj hok).symm
      have hfold := foldl_heapPush_inv (mergedElts hash s other)
        { m := [], elts := [] } wfK_empty heapProp_nil
        (fun e _ => rfl) (mergedElts_keys_nodup hash s other)
      exact ⟨hfold.1, hfold.2.1,
        fun i j hi hj hk => wfK_nodup_slots hfold.1 hi hj hk⟩
    · unfold merge at hok
      rw [if_pos hnn] at hok
      exact Except.noConfusion hok

/-- Witness for C8 on a concrete sketch: two inserts into `New(1)` with the
all-zero hash, then a further insert and a merge with an equal-size sketch. -/
theorem claim_c8_structural_invariants_witness :
    (1 : Int) ≤ (runInserts (fun _ => 0) 1 [("a", 2), ("b", 3)]).n ∧
    wfK (runInserts (fun _ => 0) 1 [("a", 2), ("b", 3)]).k ∧
    heapProp (runInserts (fun _ => 0) 1 [("a", 2), ("b", 3)]).k.elts ∧
    ((wfK ((insert (fun _ => 0) (runInserts (fun _ => 0) 1 [("a", 2), ("b", 3)])
        "c" 4).2).k ∧
      heapProp ((insert (fun _ => 0) (runInserts (fun _ => 0) 1 [("a", 2), ("b", 3)])
        "c" 4).2).k.elts ∧
      (∀ i j, i < ((insert (fun _ => 0) (runInserts (fun _ => 0) 1 [("a", 2), ("b", 3)])
          "c" 4).2).k.elts.length →
        j < ((insert (fun _ => 0) (runInserts (fun _ => 0) 1 [("a", 2), ("b", 3)])
          "c" 4).2).k.elts.length →
        (getE ((insert (fun _ => 0) (runInserts (fun _ => 0) 1 [("a", 2), ("b", 3)])
          "c" 4).2).k.elts i).Key =
          (getE ((insert (fun _ => 0) (runInserts (fun _ => 0) 1 [("a", 2), ("b", 3)])
            "c" 4).2).k.elts j).Key → i = j)) ∧
    (∀ s', merge (fun _ => 0) (runInserts (fun _ => 0) 1 [("a", 2), ("b", 3)])
        (new 1) = Except.ok s' →
      wfK s'.k ∧ heapProp s'.k.elts ∧
      (∀ i j, i < s'.k.elts.length → j < s'.k.elts.length →
        (getE s'.k.elts i).Key = (getE s'.k.elts j).Key → i = j))) := by
  refine ⟨by decide, by decide, by decide, ?_⟩
  exact claim_c8_structural_invariants (fun _ => 0)
    (runInserts (fun _ => 0) 1 [("a", 2), ("b", 3)]) (new 1) "c" 4
    (by decide) (by decide) (by decide)

/-! ## Monotonicity of the heap minimum on a full sketch (claim C10) -/

/-- C10: once the monitored set is full (`targetSize × 6` elements, for a
sketch with well-formed heap and index map), no `Insert` with positive weight
decreases the root's Count: the tracked path only grows an element, the
filter path leaves the heap untouched, and the eviction path installs a
replacement whose Count the branch condition bounds below by the evicted
minimum's Count. -/
theorem claim_c10_min_monotone (hash : String → Nat) (s : Stream) (x : String)
    (w : Int) (hn : 1 ≤ s.n) (hw : wfK s.k) (hp : heapProp s.k.elts)
    (hfull : (s.k.elts.length : Int) = s.n * bufMultiplier) (hw1 : 1 ≤ w) :
    (getE s.k.elts 0).Count ≤ (getE ((insert hash s x w).2).k.elts 0).Count := by
  have hlen0 : 0 < s.k.elts.length := by
    simp only [bufMultiplier] at hfull
    omega
  cases hcase : alookup s.k.m x with
  | some idx =>
      obtain ⟨hidx, _⟩ := wfK_lookup hw hcase
      rw [insert_eq_tracked hash s x w idx hcase]
      have hlenfix : (heapFix
          { m := s.k.m, elts := (s.k.elts.set idx
            { Key := (getE s.k.elts idx).Key,
              Count := (getE s.k.elts idx).Count + w,
              Error := (getE s.k.elts idx).Error }) } idx).elts.length
          = s.k.elts.length := by
        rw [heapFix_elts_length]
        dsimp only
        rw [length_setL]
      have hperm := heapFix_perm
        { m := s.k.m, elts := (s.k.elts.set idx
          { Key := (getE s.k.elts idx).Key,
            Count := (getE s.k.elts idx).Count + w,
            Error := (getE s.k.elts idx).Error }) } idx
        (by dsimp only; rw [length_setL]; exact hidx)
      have hmem := getE_mem (l := (heapFix
          { m := s.k.m, elts := (s.k.elts.set idx
            { Key := (getE s.k.elts idx).Key,
              Count := (getE s.k.elts idx).Count + w,
              Error := (getE s.k.elts idx).Error }) } idx).elts) (i := 0)
        (by omega)
      have hmem2 := hperm.mem_iff.mp hmem
      dsimp only at hmem2
      rcases mem_setL hmem2 with heq | hmem3
      · rw [heq]
        have h1 := leE_count (heapProp_root_le hp idx hidx)
        dsimp only
        omega
      · exact leE_count (heapProp_root_le_mem hp hmem3)
  | none =>
      by_cases hfree : (s.k.elts.length : Int) < s.n * bufMultiplier
      · omega
      · by_cases hsmall : s.alphas.getD (reduce (hash x) (s.alphas.length : Int)) 0
            + w < (getE s.k.elts 0).Count
        · rw [insert_eq_filter hash s x w hcase hfree hsmall]
        · rw [insert_eq_evict hash s x w hcase hfree hsmall]
          -- the replacement's Count is at least the evicted minimum's Count
          have hcnt : (getE s.k.elts 0).Count ≤ (s.alphas.set
              (reduce (hash (getE s.k.elts 0).Key) (s.alphas.length : Int))
              (getE s.k.elts 0).Count).getD
                (reduce (hash x) (s.alphas.length : Int)) 0 + w := by
            by_cases hxm : reduce (hash x) (s.alphas.length : Int) =
                reduce (hash (getE s.k.elts 0).Key) (s.alphas.length : Int)
            · by_cases hin : reduce (hash (getE s.k.elts 0).Key)
                  (s.alphas.length : Int) < s.alphas.length
              · rw [hxm, getD_set_self 0 hin]
                omega
              · rw [List.set_eq_of_length_le (by omega)]
                omega
            · rw [getD_set_ne 0 hxm]
              omega
          have hperm := heapFix_perm
            { m := (aset (adel s.k.m (getE s.k.elts 0).Key) x 0),
              elts := (s.k.elts.set 0
                { Key := x,
                  Count := ((s.alphas.set
                    (reduce (hash (getE s.k.elts 0).Key) (s.alphas.length : Int))
                    (getE s.k.elts 0).Count).getD
                      (reduce (hash x) (s.alphas.length : Int)) 0 + w),
                  Error := ((s.alphas.set
                    (reduce (hash (getE s.k.elts 0).Key) (s.alphas.length : Int))
                    (getE s.k.elts 0).Count).getD
                      (reduce (hash x) (s.alphas.length : Int)) 0) }) } 0
            (by dsimp only; rw [length_setL]; exact hlen0)
          have hlenfix : (heapFix
              { m := (aset (adel s.k.m (getE s.k.elts 0).Key) x 0),
                elts := (s.k.elts.set 0
                  { Key := x,
                    Count := ((s.alphas.set
                      (reduce (hash (getE s.k.elts 0).Key) (s.alphas.length : Int))
                      (getE s.k.elts 0).Count).getD
                        (reduce (hash x) (s.alphas.length : Int)) 0 + w),
                    Error := ((s.alphas.set
                      (reduce (hash (getE s.k.elts 0).Key) (s.alphas.length : Int))
                      (getE s.k.elts 0).Count).getD
                        (reduce (hash x) (s.alphas.length : Int)) 0) }) } 0).elts.length
              = s.k.elts.length := by
            rw [heapFix_elts_length]
            dsimp only
            rw [length_setL]
          have hmem := getE_mem (i := 0) (by omega :
            0 < (heapFix
              { m := (aset (adel s.k.m (getE s.k.elts 0).Key) x 0),
                elts := (s.k.elts.set 0
                  { Key := x,
                    Count := ((s.alphas.set
                      (reduce (hash (getE s.k.elts 0).Key) (s.alphas.length : Int))
                      (getE s.k.elts 0).Count).getD
                        (reduce (hash x) (s.alphas.length : Int)) 0 + w),
                    Error := ((s.alphas.set
                      (reduce (hash (getE s.k.elts 0).Key) (s.alphas.length : Int))
                      (getE s.k.elts 0).Count).getD
                        (reduce (hash x) (s.alphas.length : Int)) 0) }) } 0).elts.length)
          have hmem2 := hperm.mem_iff.mp hmem
          dsimp only at hmem2
          rcases mem_setL hmem2 with heq | hmem3
          · rw [heq]
            exact hcnt
          · exact leE_count (heapProp_root_le_mem hp hmem3)

/-- Witness for C10: a full `New(1)` sketch (six monitored elements) and a
further insert of a fresh key. -/
theorem claim_c10_min_monotone_witness :
    (1 : Int) ≤ (runInserts (fun st => st.length) 1
      [("a", 1), ("b", 2), ("c", 3), ("d", 4), ("e", 5), ("f", 6)]).n ∧
    wfK (runInserts (fun st => st.length) 1
      [("a", 1), ("b", 2), ("c", 3), ("d", 4), ("e", 5), ("f", 6)]).k ∧
    heapProp (runInserts (fun st => st.length) 1
      [("a", 1), ("b", 2), ("c", 3), ("d", 4), ("e", 5), ("f", 6)]).k.elts ∧
    ((runInserts (fun st => st.length) 1
      [("a", 1), ("b", 2), ("c", 3), ("d", 4), ("e", 5), ("f", 6)]).k.elts.length : Int)
      = (runInserts (fun st => st.length) 1
      [("a", 1), ("b", 2), ("c", 3), ("d", 4), ("e", 5), ("f", 6)]).n * bufMultiplier ∧
    (getE (runInserts (fun st => st.length) 1
      [("a", 1), ("b", 2), ("c", 3), ("d", 4), ("e", 5), ("f", 6)]).k.elts 0).Count ≤
      (getE ((insert (fun st => st.length) (runInserts (fun st => st.length) 1
        [("a", 1), ("b", 2), ("c", 3), ("d", 4), ("e", 5), ("f", 6)]) "g" 2).2).k.elts
        0).Count := by
  refine ⟨by decide, by decide, by decide, by decide, ?_⟩
  exact claim_c10_min_monotone (fun st => st.length) _ "g" 2
    (by decide) (by decide) (by decide) (by decide) (by decide)

/-! ## `Keys()` (claim C6) -/

theorem keysOf_eq_take (s : Stream) (hn : 0 ≤ s.n) :
    keysOf s = (sortD s.k.elts).take s.n.toNat := by
  show (if ((sortD s.k.elts).length : Int) > s.n then
      (sortD s.k.elts).take s.n.toNat else sortD s.k.elts)
    = (sortD s.k.elts).take s.n.toNat
  split
  · rfl
  · rename_i hle
    rw [List.take_of_length_le (by omega)]

/-- C6: `Keys()` returns the monitored elements sorted by Count descending
with ties broken by Key ascending, truncated to at most `targetSize`
elements.  The embedding is functional, so `Keys` leaves the sketch itself
untouched by construction. -/
theorem claim_c6_keys_sorted_truncated (s : Stream) (hn : 0 ≤ s.n) :
    (∃ l : List Element,
      l.Perm s.k.elts ∧ l.Pairwise leD ∧ keysOf s = l.take s.n.toNat) ∧
    (keysOf s).Pairwise leD ∧
    (keysOf s).length ≤ s.n.toNat ∧
    (∀ e ∈ keysOf s, e ∈ s.k.elts) := by
  have hchar := keysOf_eq_take s hn
  refine ⟨⟨sortD s.k.elts, sortD_perm _, sortD_sorted _, hchar⟩, ?_, ?_, ?_⟩
  · rw [hchar]
    exact (sortD_sorted _).sublist (List.take_sublist _ _)
  · rw [hchar, List.length_take]
    omega
  · intro e he
    rw [hchar] at he
    exact (sortD_perm _).mem_iff.mp ((List.take_sublist _ _).subset he)

/-- Witness for C6 on a sketch with three inserted keys. -/
theorem claim_c6_keys_sorted_truncated_witness :
    (0 : Int) ≤ (runInserts (fun st => st.length) 2
      [("a", 3), ("b", 5), ("c", 3)]).n ∧
    ((∃ l : List Element,
        l.Perm (runInserts (fun st => st.length) 2
          [("a", 3), ("b", 5), ("c", 3)]).k.elts ∧ l.Pairwise leD ∧
        keysOf (runInserts (fun st => st.length) 2 [("a", 3), ("b", 5), ("c", 3)])
          = l.take (runInserts (fun st => st.length) 2
            [("a", 3), ("b", 5), ("c", 3)]).n.toNat) ∧
      (keysOf (runInserts (fun st => st.length) 2
        [("a", 3), ("b", 5), ("c", 3)])).Pairwise leD ∧
      (keysOf (runInserts (fun st => st.length) 2
        [("a", 3), ("b", 5), ("c", 3)])).length ≤
        (runInserts (fun st => st.length) 2 [("a", 3), ("b", 5), ("c", 3)]).n.toNat ∧
      (∀ e ∈ keysOf (runInserts (fun st => st.length) 2
        [("a", 3), ("b", 5), ("c", 3)]),
        e ∈ (runInserts (fun st => st.length) 2
          [("a", 3), ("b", 5), ("c", 3)]).k.elts)) :=
  ⟨by decide, claim_c6_keys_sorted_truncated
    (runInserts (fun st => st.length) 2 [("a", 3), ("b", 5), ("c", 3)]) (by decide)⟩

/-! ## The total-weight counter (claim C5) -/

/-- C5: the wrapper's counter accumulates every Insert's weight — the
per-call increment is unconditional (independent of tracking), and after any
run from a fresh sketch `Count()` equals the sum of all inserted weights.
The wrapper itself is modelled from the spec (its source is not under
`src/`). -/
theorem claim_c5_count_is_weight_sum (hash : String → Nat) (n : Int)
    (ops : List (String × Int)) :
    topkCount (runTopK hash n ops) = (ops.map (·.2)).sum ∧
    (∀ (t : TopK) (x : String) (w : Int),
      topkCount (topkInsert hash t x w).2 = topkCount t + w) := by
  constructor
  · have haux : ∀ (l : List (String × Int)) (t : TopK),
        topkCount (l.foldl (fun t p => (topkInsert hash t p.1 p.2).2) t) =
          topkCount t + (l.map (·.2)).sum := by
      intro l
      induction l with
      | nil => intro t; simp [topkCount]
      | cons p rest ih =>
          intro t
          rw [List.foldl_cons, ih]
          show (t.total + p.2) + (rest.map (·.2)).sum =
            t.total + (p.2 + (rest.map (·.2)).sum)
          omega
    have h := haux ops (topkNew n)
    simpa [runTopK, topkNew, topkCount] using h
  · intro t x w
    rfl

/-! ## Serialization round trip (claim C7) -/

theorem readInts_enc (l : List Int) : ∀ rest : List Tok,
    readInts l.length (l.map Tok.tI ++ rest) = Except.ok (l, rest) := by
  induction l with
  | nil => intro rest; rfl
  | cons v t ih =>
      intro rest
      show (do
        let r ← readInts t.length (t.map Tok.tI ++ rest)
        Except.ok (v :: r.1, r.2)) = Except.ok (v :: t, rest)
      rw [ih rest]
      rfl

theorem readElems_enc (es : List Element) : ∀ rest : List Tok,
    readElems es.length
      ((es.map fun e => [Tok.tS e.Key, Tok.tI e.Count, Tok.tI e.Error]).flatten
        ++ rest) = Except.ok (es, rest) := by
  induction es with
  | nil => intro rest; rfl
  | cons e t ih =>
      intro rest
      show (do
        let r ← readElems t.length
          ((t.map fun e => [Tok.tS e.Key, Tok.tI e.Count, Tok.tI e.Error]).flatten
            ++ rest)
        Except.ok (({ Key := e.Key, Count := e.Count, Error := e.Error } : Element)
          :: r.1, r.2)) = Except.ok (e :: t, rest)
      rw [ih rest]
      rfl

theorem readPairs_enc (m : List (String × Nat)) : ∀ (acc : List (String × Nat))
    (rest : List Tok), (((acc ++ m).map Prod.fst).Nodup) →
    readPairs m.length acc
      ((m.map fun p => [Tok.tS p.1, Tok.tI (p.2 : Int)]).flatten ++ rest) =
      Except.ok (acc ++ m, rest) := by
  induction m with
  | nil => intro acc rest _; simp [readPairs]
  | cons p t ih =>
      intro acc rest hnd
      rcases p with ⟨k, v⟩
      show readPairs t.length (aset acc k ((v : Int)).toNat)
          ((t.map fun p => [Tok.tS p.1, Tok.tI (p.2 : Int)]).flatten ++ rest) =
        Except.ok (acc ++ (k, v) :: t, rest)
      have htn : ((v : Int)).toNat = v := Int.toNat_natCast v
      have hfresh : alookup acc k = none := by
        rw [alookup_eq_none_iff]
        intro hmem
        have : ¬ ((acc ++ (k, v) :: t).map Prod.fst).Nodup := by
          simp only [List.map_append, List.map_cons]
          intro hnd2
          have h2 := (List.nodup_append.mp hnd2).2.2
          exact h2 hmem (List.mem_cons_self _ _)
        exact this hnd
      rw [htn, aset_fresh v hfresh]
      have hnd' : (((acc ++ [(k, v)]) ++ t).map Prod.fst).Nodup := by
        simpa using hnd
      rw [ih (acc ++ [(k, v)]) rest hnd']
      simp

theorem decKeys_enc (tk : Keys) (rest : List Tok)
    (hnd : ((tk.m.map Prod.fst).Nodup)) (hm : tk.m.length < 2 ^ 32)
    (he : tk.elts.length < 2 ^ 32) :
    decKeys (encKeys tk ++ rest) = Except.ok (tk, rest) := by
  show decKeys (Tok.tM (tk.m.length % 2 ^ 32) ::
    (((tk.m.map fun p => [Tok.tS p.1, Tok.tI (p.2 : Int)]).flatten ++
      (Tok.tA (tk.elts.length % 2 ^ 32) ::
        (tk.elts.map fun e => [Tok.tS e.Key, Tok.tI e.Count, Tok.tI e.Error]).flatten))
      ++ rest)) = Except.ok (tk, rest)
  rw [Nat.mod_eq_of_lt hm]
  show (do
    let rm ← readPairs tk.m.length []
      (((tk.m.map fun p => [Tok.tS p.1, Tok.tI (p.2 : Int)]).flatten ++
        (Tok.tA (tk.elts.length % 2 ^ 32) ::
          (tk.elts.map fun e => [Tok.tS e.Key, Tok.tI e.Count, Tok.tI e.Error]).flatten))
        ++ rest)
    match rm.2 with
    | Tok.tA sza :: ts2 => do
        let re ← readElems sza ts2
        Except.ok (({ m := rm.1, elts := re.1 } : Keys), re.2)
    | _ => Except.error ()) = Except.ok (tk, rest)
  rw [List.append_assoc]
  rw [readPairs_enc tk.m [] _ (by simpa using hnd)]
  show (do
    let re ← readElems (tk.elts.length % 2 ^ 32)
      ((tk.elts.map fun e => [Tok.tS e.Key, Tok.tI e.Count, Tok.tI e.Error]).flatten
        ++ rest)
    Except.ok (({ m := [] ++ tk.m, elts := re.1 } : Keys), re.2))
    = Except.ok (tk, rest)
  rw [Nat.mod_eq_of_lt he, readElems_enc tk.elts rest]
  rfl

theorem decStream_enc (s : Stream) (rest : List Tok)
    (hnd : ((s.k.m.map Prod.fst).Nodup)) (hm : s.k.m.length < 2 ^ 32)
    (he : s.k.elts.length < 2 ^ 32) (ha : s.alphas.length < 2 ^ 32) :
    decStream (encStream s ++ rest) = Except.ok (s, rest) := by
  show (do
    let ra ← readInts (s.alphas.length % 2 ^ 32)
      ((s.alphas.map Tok.tI ++ encKeys s.k) ++ rest)
    let rk ← decKeys ra.2
    Except.ok (({ n := s.n, k := rk.1, alphas := ra.1 } : Stream), rk.2))
    = Except.ok (s, rest)
  rw [Nat.mod_eq_of_lt ha, List.append_assoc, readInts_enc s.alphas _]
  show (do
    let rk ← decKeys (encKeys s.k ++ rest)
    Except.ok (({ n := s.n, k := rk.1, alphas := s.alphas } : Stream), rk.2))
    = Except.ok (s, rest)
  rw [decKeys_enc s.k rest hnd hm he]
  rfl

theorem decTopK_enc (t : TopK) (rest : List Tok)
    (hnd : ((t.stream.k.m.map Prod.fst).Nodup)) (hm : t.stream.k.m.length < 2 ^ 32)
    (he : t.stream.k.elts.length < 2 ^ 32) (ha : t.stream.alphas.length < 2 ^ 32) :
    decTopK (encTopK t ++ rest) = Except.ok (t, rest) := by
  show (do
    let rs ← decStream (encStream t.stream ++ rest)
    Except.ok (({ stream := rs.1, total := t.total } : TopK), rs.2))
    = Except.ok (t, rest)
  rw [decStream_enc t.stream rest hnd hm he ha]
  rfl

/-- C7: decoding the token stream produced by encoding a sketch yields the
identical sketch — same `targetSize`, filter array, monitored elements and
key-to-slot map — hence the same `Keys()`, the same `Estimate(k)` for every
key, and the same `Count()`.  The counter-carrying wrapper and its place in
the wire format are modelled from the spec; the `Stream` codec is embedded
from `Stream.EncodeMsgp` / `Stream.DecodeMsgp`. -/
theorem claim_c7_roundtrip (t : TopK)
    (hnd : ((t.stream.k.m.map Prod.fst).Nodup))
    (hm : t.stream.k.m.length < 2 ^ 32) (he : t.stream.k.elts.length < 2 ^ 32)
    (ha : t.stream.alphas.length < 2 ^ 32) :
    decTopK (encTopK t) = Except.ok (t, []) ∧
    decStream (encStream t.stream) = Except.ok (t.stream, []) ∧
    (∀ t' : TopK, decTopK (encTopK t) = Except.ok (t', []) →
      t'.stream.n = t.stream.n ∧ t'.stream.alphas = t.stream.alphas ∧
      t'.stream.k = t.stream.k ∧ keysOf t'.stream = keysOf t.stream ∧
      (∀ (hash : String → Nat) (k : String),
        estimate hash t'.stream k = estimate hash t.stream k) ∧
      topkCount t' = topkCount t) := by
  have h1 : decTopK (encTopK t) = Except.ok (t, []) := by
    have := decTopK_enc t [] hnd hm he ha
    simpa using this
  have h2 : decStream (encStream t.stream) = Except.ok (t.stream, []) := by
    have := decStream_enc t.stream [] hnd hm he ha
    simpa using this
  refine ⟨h1, h2, ?_⟩
  intro t' ht'
  rw [h1] at ht'
  obtain rfl : t = t' := congrArg Prod.fst (Except.ok.inj ht')
  exact ⟨rfl, rfl, rfl, rfl, fun _ _ => rfl, rfl⟩

/-- Witness for C7 on a sketch built by two inserts. -/
theorem claim_c7_roundtrip_witness :
    (((runTopK (fun st => st.length) 1 [("a", 2), ("b", 5)]).stream.k.m.map
      Prod.fst).Nodup) ∧
    decTopK (encTopK (runTopK (fun st => st.length) 1 [("a", 2), ("b", 5)])) =
      Except.ok (runTopK (fun st => st.length) 1 [("a", 2), ("b", 5)], []) ∧
    decStream (encStream (runTopK (fun st => st.length) 1
      [("a", 2), ("b", 5)]).stream) =
      Except.ok ((runTopK (fun st => st.length) 1 [("a", 2), ("b", 5)]).stream, []) := by
  refine ⟨by decide, ?_, ?_⟩
  · exact (claim_c7_roundtrip (runTopK (fun st => st.length) 1 [("a", 2), ("b", 5)])
      (by decide) (by decide) (by decide) (by decide)).1
  · exact (claim_c7_roundtrip (runTopK (fun st => st.length) 1 [("a", 2), ("b", 5)])
      (by decide) (by decide) (by decide) (by decide)).2.1

/-! ## The eviction path of `Insert` (claim C3) -/

theorem alookup_none_of_no_slot {tk : Keys} (hw : wfK tk) {key : String}
    (h : ∀ i, i < tk.elts.length → (getE tk.elts i).Key ≠ key) :
    alookup tk.m key = none := by
  cases hl : alookup tk.m key with
  | none => rfl
  | some i =>
      obtain ⟨hi, hk⟩ := wfK_lookup hw hl
      exact absurd hk (h i hi)

/-- C3 counterexample: on `New(1)` with the all-zero hash, fill the
monitored set with six unit-weight keys, then insert a seventh.  The insert
takes the eviction path, the pre-eviction filter bucket for the new key is
`0`, yet the returned element is `⟨"g", 2, 1⟩` — not the
`⟨"g", 0 + 1, 0⟩` the claim prescribes — because the new key's bucket
coincides with the evicted minimum's bucket and the code reads the bucket
only after banking the evicted Count into it. -/
theorem claim_c3_counterexample :
    alookup (runInserts (fun _ => 0) 1
      [("a", 1), ("b", 1), ("c", 1), ("d", 1), ("e", 1), ("f", 1)]).k.m "g" = none ∧
    ¬ (((runInserts (fun _ => 0) 1
      [("a", 1), ("b", 1), ("c", 1), ("d", 1), ("e", 1), ("f", 1)]).k.elts.length : Int)
      < (runInserts (fun _ => 0) 1
        [("a", 1), ("b", 1), ("c", 1), ("d", 1), ("e", 1), ("f", 1)]).n * bufMultiplier) ∧
    ¬ ((runInserts (fun _ => 0) 1
        [("a", 1), ("b", 1), ("c", 1), ("d", 1), ("e", 1), ("f", 1)]).alphas.getD
      (reduce 0 ((runInserts (fun _ => 0) 1
        [("a", 1), ("b", 1), ("c", 1), ("d", 1), ("e", 1), ("f", 1)]).alphas.length : Int))
      0 + 1 <
      (getE (runInserts (fun _ => 0) 1
        [("a", 1), ("b", 1), ("c", 1), ("d", 1), ("e", 1), ("f", 1)]).k.elts 0).Count) ∧
    (runInserts (fun _ => 0) 1
      [("a", 1), ("b", 1), ("c", 1), ("d", 1), ("e", 1), ("f", 1)]).alphas.getD
      (reduce 0 ((runInserts (fun _ => 0) 1
        [("a", 1), ("b", 1), ("c", 1), ("d", 1), ("e", 1), ("f", 1)]).alphas.length : Int))
      0 = 0 ∧
    (insert (fun _ => 0) (runInserts (fun _ => 0) 1
      [("a", 1), ("b", 1), ("c", 1), ("d", 1), ("e", 1), ("f", 1)]) "g" 1).1 ≠
      { Key := "g",
        Count := (runInserts (fun _ => 0) 1
          [("a", 1), ("b", 1), ("c", 1), ("d", 1), ("e", 1), ("f", 1)]).alphas.getD
          (reduce 0 ((runInserts (fun _ => 0) 1
            [("a", 1), ("b", 1), ("c", 1), ("d", 1), ("e", 1), ("f", 1)]).alphas.length
            : Int)) 0 + 1,
        Error := (runInserts (fun _ => 0) 1
          [("a", 1), ("b", 1), ("c", 1), ("d", 1), ("e", 1), ("f", 1)]).alphas.getD
          (reduce 0 ((runInserts (fun _ => 0) 1
            [("a", 1), ("b", 1), ("c", 1), ("d", 1), ("e", 1), ("f", 1)]).alphas.length
            : Int)) 0 } ∧
    (insert (fun _ => 0) (runInserts (fun _ => 0) 1
      [("a", 1), ("b", 1), ("c", 1), ("d", 1), ("e", 1), ("f", 1)]) "g" 1).1 =
      { Key := "g", Count := 2, Error := 1 } := by
  decide

/-- C3 (amended): on the eviction path, `Insert` banks the evicted minimum's
Count into the evicted key's bucket, removes the evicted key from the index
map, installs the new key, and returns
`Element⟨x, filterEst + weight, filterEst⟩` — where `filterEst` is the
bucket value read **after** banking: the evicted minimum's Count when the
new key's bucket coincides with the evicted key's bucket, and the
pre-eviction bucket value otherwise. -/
theorem claim_c3_eviction_amended (hash : String → Nat) (s : Stream) (x : String)
    (w : Int) (hw : wfK s.k) (hlen0 : 0 < s.k.elts.length)
    (hal : 0 < s.alphas.length) (hu : alookup s.k.m x = none)
    (hfull : ¬ (s.k.elts.length : Int) < s.n * bufMultiplier)
    (hbig : ¬ s.alphas.getD (reduce (hash x) (s.alphas.length : Int)) 0 + w <
      (getE s.k.elts 0).Count) :
    (insert hash s x w).1 =
      { Key := x,
        Count := (if reduce (hash x) (s.alphas.length : Int) =
            reduce (hash (getE s.k.elts 0).Key) (s.alphas.length : Int)
          then (getE s.k.elts 0).Count
          else s.alphas.getD (reduce (hash x) (s.alphas.length : Int)) 0) + w,
        Error := (if reduce (hash x) (s.alphas.length : Int) =
            reduce (hash (getE s.k.elts 0).Key) (s.alphas.length : Int)
          then (getE s.k.elts 0).Count
          else s.alphas.getD (reduce (hash x) (s.alphas.length : Int)) 0) } ∧
    (insert hash s x w).2.alphas = s.alphas.set
      (reduce (hash (getE s.k.elts 0).Key) (s.alphas.length : Int))
      (getE s.k.elts 0).Count ∧
    alookup ((insert hash s x w).2).k.m (getE s.k.elts 0).Key = none ∧
    (alookup ((insert hash s x w).2).k.m x).isSome := by
  have hmk : reduce (hash (getE s.k.elts 0).Key) (s.alphas.length : Int) <
      s.alphas.length := by
    have := reduce_lt (hash (getE s.k.elts 0).Key) (s.alphas.length : Int) (by omega)
    omega
  have hpost : (s.alphas.set
      (reduce (hash (getE s.k.elts 0).Key) (s.alphas.length : Int))
      (getE s.k.elts 0).Count).getD
        (reduce (hash x) (s.alphas.length : Int)) 0 =
      (if reduce (hash x) (s.alphas.length : Int) =
          reduce (hash (getE s.k.elts 0).Key) (s.alphas.length : Int)
        then (getE s.k.elts 0).Count
        else s.alphas.getD (reduce (hash x) (s.alphas.length : Int)) 0) := by
    by_cases hxm : reduce (hash x) (s.alphas.length : Int) =
        reduce (hash (getE s.k.elts 0).Key) (s.alphas.length : Int)
    · rw [if_pos hxm, hxm, getD_set_self 0 hmk]
    · rw [if_neg hxm, getD_set_ne 0 hxm]
  rw [insert_eq_evict hash s x w hu hfull hbig]
  have hminx : (getE s.k.elts 0).Key ≠ x := by
    intro he
    have h0 := hw.1 0 hlen0
    rw [he, hu] at h0
    exact Option.noConfusion h0
  have hw' := wfK_evict s.k x
    { Key := x,
      Count := ((s.alphas.set
        (reduce (hash (getE s.k.elts 0).Key) (s.alphas.length : Int))
        (getE s.k.elts 0).Count).getD
          (reduce (hash x) (s.alphas.length : Int)) 0 + w),
      Error := ((s.alphas.set
        (reduce (hash (getE s.k.elts 0).Key) (s.alphas.length : Int))
        (getE s.k.elts 0).Count).getD
          (reduce (hash x) (s.alphas.length : Int)) 0) } hw hlen0 hu rfl
  have hwfix := wfK_heapFix _ 0 hw' (by dsimp only; rw [length_setL]; exact hlen0)
  have hlenfix : (heapFix
      { m := (aset (adel s.k.m (getE s.k.elts 0).Key) x 0),
        elts := (s.k.elts.set 0
          { Key := x,
            Count := ((s.alphas.set
              (reduce (hash (getE s.k.elts 0).Key) (s.alphas.length : Int))
              (getE s.k.elts 0).Count).getD
                (reduce (hash x) (s.alphas.length : Int)) 0 + w),
            Error := ((s.alphas.set
              (reduce (hash (getE s.k.elts 0).Key) (s.alphas.length : Int))
              (getE s.k.elts 0).Count).getD
                (reduce (hash x) (s.alphas.length : Int)) 0) }) } 0).elts.length
      = s.k.elts.length := by
    rw [heapFix_elts_length]
    dsimp only
    rw [length_setL]
  have hpermfix := heapFix_perm
    { m := (aset (adel s.k.m (getE s.k.elts 0).Key) x 0),
      elts := (s.k.elts.set 0
        { Key := x,
          Count := ((s.alphas.set
            (reduce (hash (getE s.k.elts 0).Key) (s.alphas.length : Int))
            (getE s.k.elts 0).Count).getD
              (reduce (hash x) (s.alphas.length : Int)) 0 + w),
          Error := ((s.alphas.set
            (reduce (hash (getE s.k.elts 0).Key) (s.alphas.length : Int))
            (getE s.k.elts 0).Count).getD
              (reduce (hash x) (s.alphas.length : Int)) 0) }) } 0
    (by dsimp only; rw [length_setL]; exact hlen0)
  refine ⟨?_, rfl, ?_, ?_⟩
  · dsimp only
    rw [← hpost]
  · -- the evicted key is gone from the index map
    apply alookup_none_of_no_slot hwfix
    intro i hi he
    have hmem := getE_mem hi
    have hmem2 := hpermfix.mem_iff.mp hmem
    dsimp only at hmem2
    rcases mem_getE hmem2 with ⟨j, hj, hje⟩
    rw [length_setL] at hj
    by_cases hj0 : j = 0
    · subst hj0
      rw [getE_set_self hlen0] at hje
      rw [← hje] at he
      exact hminx he.symm
    · rw [getE_set_ne hj0] at hje
      rw [← hje] at he
      exact wfK_key_ne hw hj hlen0 hj0 he
  · -- the new key is tracked
    rw [wfK_tracked_iff hwfix]
    apply (hpermfix.map (fun e => e.Key)).mem_iff.mpr
    dsimp only
    refine List.mem_map.mpr
      ⟨_, getE_mem (i := 0) (by rw [length_setL]; exact hlen0), ?_⟩
    rw [getE_set_self hlen0]

/-- Witness for the amended C3 on the concrete seventh insert of the
counterexample run. -/
theorem claim_c3_eviction_amended_witness :
    wfK (runInserts (fun _ => 0) 1
      [("a", 1), ("b", 1), ("c", 1), ("d", 1), ("e", 1), ("f", 1)]).k ∧
    ((insert (fun _ => 0) (runInserts (fun _ => 0) 1
      [("a", 1), ("b", 1), ("c", 1), ("d", 1), ("e", 1), ("f", 1)]) "g" 1).1 =
      { Key := "g",
        Count := (if reduce ((fun (_ : String) => 0) "g")
            (((runInserts (fun _ => 0) 1
              [("a", 1), ("b", 1), ("c", 1), ("d", 1), ("e", 1), ("f", 1)]).alphas.length
              : Int)) =
            reduce ((fun (_ : String) => 0) (getE (runInserts (fun _ => 0) 1
              [("a", 1), ("b", 1), ("c", 1), ("d", 1), ("e", 1), ("f", 1)]).k.elts
              0).Key)
            (((runInserts (fun _ => 0) 1
              [("a", 1), ("b", 1), ("c", 1), ("d", 1), ("e", 1), ("f", 1)]).alphas.length
              : Int))
          then (getE (runInserts (fun _ => 0) 1
            [("a", 1), ("b", 1), ("c", 1), ("d", 1), ("e", 1), ("f", 1)]).k.elts
            0).Count
          else (runInserts (fun _ => 0) 1
            [("a", 1), ("b", 1), ("c", 1), ("d", 1), ("e", 1), ("f", 1)]).alphas.getD
            (reduce ((fun (_ : String) => 0) "g")
              (((runInserts (fun _ => 0) 1
                [("a", 1), ("b", 1), ("c", 1), ("d", 1), ("e", 1), ("f", 1)]).alphas.length
                : Int))) 0) + 1,
        Error := (if reduce ((fun (_ : String) => 0) "g")
            (((runInserts (fun _ => 0) 1
              [("a", 1), ("b", 1), ("c", 1), ("d", 1), ("e", 1), ("f", 1)]).alphas.length
              : Int)) =
            reduce ((fun (_ : String) => 0) (getE (runInserts (fun _ => 0) 1
              [("a", 1), ("b", 1), ("c", 1), ("d", 1), ("e", 1), ("f", 1)]).k.elts
              0).Key)
            (((runInserts (fun _ => 0) 1
              [("a", 1), ("b", 1), ("c", 1), ("d", 1), ("e", 1), ("f", 1)]).alphas.length
              : Int))
          then (getE (runInserts (fun _ => 0) 1
            [("a", 1), ("b", 1), ("c", 1), ("d", 1), ("e", 1), ("f", 1)]).k.elts
            0).Count
          else (runInserts (fun _ => 0) 1
            [("a", 1), ("b", 1), ("c", 1), ("d", 1), ("e", 1), ("f", 1)]).alphas.getD
            (reduce ((fun (_ : String) => 0) "g")
              (((runInserts (fun _ => 0) 1
                [("a", 1), ("b", 1), ("c", 1), ("d", 1), ("e", 1), ("f", 1)]).alphas.length
                : Int))) 0) } ∧
      alookup ((insert (fun _ => 0) (runInserts (fun _ => 0) 1
        [("a", 1), ("b", 1), ("c", 1), ("d", 1), ("e", 1), ("f", 1)]) "g" 1).2).k.m
        (getE (runInserts (fun _ => 0) 1
          [("a", 1), ("b", 1), ("c", 1), ("d", 1), ("e", 1), ("f", 1)]).k.elts 0).Key
        = none ∧
      (alookup ((insert (fun _ => 0) (runInserts (fun _ => 0) 1
        [("a", 1), ("b", 1), ("c", 1), ("d", 1), ("e", 1), ("f", 1)]) "g" 1).2).k.m
        "g").isSome) := by
  constructor
  · decide
  · have h := claim_c3_eviction_amended (fun _ => 0)
      (runInserts (fun _ => 0) 1
        [("a", 1), ("b", 1), ("c", 1), ("d", 1), ("e", 1), ("f", 1)]) "g" 1
      (by decide) (by decide) (by decide) (by decide) (by decide) (by decide)
    exact ⟨h.1, h.2.2.1, h.2.2.2⟩

/-! ## Merge truncation (claim C4) -/

theorem mergedElts_eq_take (hash : String → Nat) (s other : Stream) (hn : 0 ≤ s.n) :
    mergedElts hash s other =
      (sortD ((unionKeys s other).filterMap (combineE hash s other))).take s.n.toNat := by
  unfold mergedElts
  split
  · rfl
  · rename_i hle
    rw [List.take_of_length_le (by omega)]

/-- C4 counterexample: with `targetSize = 1`, a receiver monitoring two keys
merged with an empty equal-size sketch has a two-key union — more than
`targetSize` and well below `capacity = 6` — yet the rebuilt monitored set
keeps only one element, not both. -/
theorem claim_c4_counterexample :
    (unionKeys (runInserts (fun _ => 0) 1 [("a", 5), ("b", 3)]) (new 1)).length = 2 ∧
    ((unionKeys (runInserts (fun _ => 0) 1 [("a", 5), ("b", 3)]) (new 1)).length : Int)
      ≤ (runInserts (fun _ => 0) 1 [("a", 5), ("b", 3)]).n * bufMultiplier ∧
    ((unionKeys (runInserts (fun _ => 0) 1 [("a", 5), ("b", 3)]) (new 1)).length : Int)
      > (runInserts (fun _ => 0) 1 [("a", 5), ("b", 3)]).n ∧
    ((merge (fun _ => 0) (runInserts (fun _ => 0) 1 [("a", 5), ("b", 3)])
      (new 1)).toOption.map fun s' => s'.k.elts.length) = some 1 ∧
    ((merge (fun _ => 0) (runInserts (fun _ => 0) 1 [("a", 5), ("b", 3)])
      (new 1)).toOption.map fun s' => s'.k.elts.length) ≠ some 2 := by
  decide

/-- C4 (amended): `Merge` sorts the combined per-key estimates by Count
descending with ties broken by Key ascending, then truncates the list to
`targetSize` (not to `capacity = targetSize × 6`) before rebuilding the
monitored set; consequently the rebuilt monitored set never holds more than
`targetSize` elements, and whenever the union exceeds `targetSize` the
entries beyond the first `targetSize` are discarded. -/
theorem claim_c4_merge_truncates_to_targetsize (hash : String → Nat)
    (s other : Stream) (hn : 0 ≤ s.n) :
    ∀ s', merge hash s other = Except.ok s' →
      (s'.k.elts).Perm
        ((sortD ((unionKeys s other).filterMap (combineE hash s other))).take
          s.n.toNat) ∧
      (s'.k.elts.length : Int) ≤ s.n ∧
      (sortD ((unionKeys s other).filterMap (combineE hash s other))).Pairwise leD := by
  intro s' hok
  by_cases hnn : s.n = other.n
  · rw [merge_eq_ok hash s other hnn] at hok
    obtain rfl := (Except.ok.inj hok).symm
    dsimp only
    have hfold := foldl_heapPush_inv (mergedElts hash s other)
      { m := [], elts := [] } wfK_empty heapProp_nil
      (fun e _ => rfl) (mergedElts_keys_nodup hash s other)
    have hperm := hfold.2.2
    rw [List.nil_append] at hperm
    have heq := mergedElts_eq_take hash s other hn
    refine ⟨by rw [← heq]; exact hperm, ?_, sortD_sorted _⟩
    have hlen := hperm.length_eq
    have hlen2 : (mergedElts hash s other).length
        = min s.n.toNat
          (sortD ((unionKeys s other).filterMap (combineE hash s other))).length := by
      rw [heq, List.length_take]
    omega
  · unfold merge at hok
    rw [if_pos hnn] at hok
    exact Except.noConfusion hok

/-- Witness for the amended C4 on the counterexample's concrete merge. -/
theorem claim_c4_merge_truncates_to_targetsize_witness :
    (0 : Int) ≤ (runInserts (fun _ => 0) 1 [("a", 5), ("b", 3)]).n ∧
    (∀ s', merge (fun _ => 0) (runInserts (fun _ => 0) 1 [("a", 5), ("b", 3)])
        (new 1) = Except.ok s' →
      (s'.k.elts).Perm
        ((sortD ((unionKeys (runInserts (fun _ => 0) 1 [("a", 5), ("b", 3)])
          (new 1)).filterMap (combineE (fun _ => 0)
            (runInserts (fun _ => 0) 1 [("a", 5), ("b", 3)]) (new 1)))).take
          (runInserts (fun _ => 0) 1 [("a", 5), ("b", 3)]).n.toNat) ∧
      (s'.k.elts.length : Int) ≤ (runInserts (fun _ => 0) 1 [("a", 5), ("b", 3)]).n ∧
      (sortD ((unionKeys (runInserts (fun _ => 0) 1 [("a", 5), ("b", 3)])
        (new 1)).filterMap (combineE (fun _ => 0)
          (runInserts (fun _ => 0) 1 [("a", 5), ("b", 3)]) (new 1)))).Pairwise leD) :=
  ⟨by decide, claim_c4_merge_truncates_to_targetsize (fun _ => 0)
    (runInserts (fun _ => 0) 1 [("a", 5), ("b", 3)]) (new 1) (by decide)⟩

/-! ## One-sided combined estimates in `Merge` (claim C2) -/

/-- C2, evaluated at a failing input: the receiver is an empty `New(1)`; the
other sketch was built by seven unit-weight inserts under the all-zero hash,
so its bucket 0 holds 1 and it monitors `"c"` with Count 2 / Error 1.  For
`"c"` — tracked only in `other` — the code adds `other`'s own bucket value 1
(yielding Count 3 / Error 2) where the claim prescribes the receiver's
bucket value 0 (yielding Count 2 / Error 1). -/
theorem claim_c2_code_eval :
    alookup (new 1).k.m "c" = none ∧
    (alookup (runInserts (fun _ => 0) 1
      [("b1", 1), ("b2", 1), ("b3", 1), ("b4", 1), ("b5", 1), ("b6", 1),
        ("c", 1)]).k.m "c").isSome ∧
    (new 1).alphas.getD (reduce 0 ((new 1).alphas.length : Int)) 0 = 0 ∧
    (runInserts (fun _ => 0) 1
      [("b1", 1), ("b2", 1), ("b3", 1), ("b4", 1), ("b5", 1), ("b6", 1),
        ("c", 1)]).alphas.getD
      (reduce 0 ((runInserts (fun _ => 0) 1
        [("b1", 1), ("b2", 1), ("b3", 1), ("b4", 1), ("b5", 1), ("b6", 1),
          ("c", 1)]).alphas.length : Int)) 0 = 1 ∧
    estimate (fun _ => 0) (runInserts (fun _ => 0) 1
      [("b1", 1), ("b2", 1), ("b3", 1), ("b4", 1), ("b5", 1), ("b6", 1),
        ("c", 1)]) "c" = { Key := "c", Count := 2, Error := 1 } ∧
    combineE (fun _ => 0) (new 1) (runInserts (fun _ => 0) 1
      [("b1", 1), ("b2", 1), ("b3", 1), ("b4", 1), ("b5", 1), ("b6", 1),
        ("c", 1)]) "c" = some { Key := "c", Count := 3, Error := 2 } ∧
    combineE (fun _ => 0) (new 1) (runInserts (fun _ => 0) 1
      [("b1", 1), ("b2", 1), ("b3", 1), ("b4", 1), ("b5", 1), ("b6", 1),
        ("c", 1)]) "c" ≠ some { Key := "c", Count := 2, Error := 1 } ∧
    ((merge (fun _ => 0) (new 1) (runInserts (fun _ => 0) 1
      [("b1", 1), ("b2", 1), ("b3", 1), ("b4", 1), ("b5", 1), ("b6", 1),
        ("c", 1)])).toOption.map fun s' => keysOf s') =
      some [{ Key := "c", Count := 3, Error := 2 }] := by
  decide



/-! ## The Space-Saving error bound (claim C1) -/

theorem trueW_append (a b : List (String × Int)) (y : String) :
    trueW (a ++ b) y = trueW a y + trueW b y := by
  induction a with
  | nil => simp [trueW]
  | cons p t ih =>
      show (if p.1 = y then p.2 else 0) + trueW (t ++ b) y =
        ((if p.1 = y then p.2 else 0) + trueW t y) + trueW b y
      rw [ih]
      ring

theorem trueW_nonneg {ops : List (String × Int)} (h : ∀ p ∈ ops, 1 ≤ p.2)
    (y : String) : 0 ≤ trueW ops y := by
  induction ops with
  | nil => simp [trueW]
  | cons p t ih =>
      have hp := h p (List.mem_cons_self p t)
      have ht := ih fun q hq => h q (List.mem_cons_of_mem p hq)
      show 0 ≤ (if p.1 = y then p.2 else 0) + trueW t y
      split <;> omega

theorem insert_n (hash : String → Nat) (s : Stream) (x : String) (w : Int) :
    ((insert hash s x w).2).n = s.n := by
  cases hc : alookup s.k.m x with
  | some idx =>
      rw [insert_eq_tracked hash s x w idx hc]
  | none =>
      by_cases hfree : (s.k.elts.length : Int) < s.n * bufMultiplier
      · rw [insert_eq_push hash s x w hc hfree]
      · by_cases hsmall : s.alphas.getD (reduce (hash x) (s.alphas.length : Int)) 0
            + w < (getE s.k.elts 0).Count
        · rw [insert_eq_filter hash s x w hc hfree hsmall]
        · rw [insert_eq_evict hash s x w hc hfree hsmall]

theorem runInserts_n (hash : String → Nat) (n : Int) (ops : List (String × Int)) :
    (runInserts hash n ops).n = n := by
  suffices h : ∀ (l : List (String × Int)) (s : Stream),
      (l.foldl (fun t p => (insert hash t p.1 p.2).2) s).n = s.n by
    exact h ops (new n)
  intro l
  induction l with
  | nil => intro s; rfl
  | cons p t ih =>
      intro s
      show (t.foldl (fun t p => (insert hash t p.1 p.2).2)
        ((insert hash s p.1 p.2).2)).n = s.n
      rw [ih ((insert hash s p.1 p.2).2), insert_n]

theorem getD_replicate (m j : Nat) : (List.replicate m (0 : Int)).getD j 0 = 0 := by
  induction m generalizing j with
  | zero => rfl
  | succ k ih =>
      cases j with
      | zero => rfl
      | succ t => exact ih t

theorem inv_congr {hash : String → Nat} {f g : String → Int} {s : Stream}
    (hfg : ∀ y, f y = g y) (h : inv hash f s) : inv hash g s := by
  obtain ⟨h1, h2, h3, h4, h5, h6, h7⟩ := h
  exact ⟨h1, h2, h3, fun e he => by rw [← hfg]; exact h4 e he,
    fun y hy => by rw [← hfg]; exact h5 y hy, h6, h7⟩

/-- Members of `l.set i a` are `a` or sit at an untouched slot of `l`. -/
theorem mem_set_cases {l : List Element} {i : Nat} {a e : Element}
    (hi : i < l.length) (he : e ∈ l.set i a) :
    e = a ∨ ∃ t, t < l.length ∧ t ≠ i ∧ getE l t = e := by
  rcases mem_getE he with ⟨t, ht, hget⟩
  rw [length_setL] at ht
  by_cases hti : t = i
  · subst hti
    rw [getE_set_self hi] at hget
    exact Or.inl hget.symm
  · rw [getE_set_ne hti] at hget
    exact Or.inr ⟨t, ht, hti, hget⟩

/-- The root of any permutation of `base` obeys a count lower bound shared
by all of `base`. -/
theorem getE_zero_count_ge {l base : List Element} {c : Int}
    (hperm : l.Perm base) (h0 : 0 < l.length)
    (hb : ∀ e ∈ base, c ≤ e.Count) : c ≤ (getE l 0).Count :=
  hb _ (hperm.mem_iff.mp (getE_mem h0))

/-- `New(n)` establishes the invariant for the all-zero weight function. -/
theorem inv_new (hash : String → Nat) (n : Int) (hn : 1 ≤ n) :
    inv hash (fun _ => 0) (new n) := by
  unfold inv new
  refine ⟨wfK_empty, heapProp_nil, ?_, ?_, ?_, ?_, ?_⟩
  · simp only [List.length_replicate, bufMultiplier]
    omega
  · intro e he
    simp at he
  · intro y _
    simp [getD_replicate]
  · intro _ j
    exact getD_replicate _ _
  · intro _ j
    rw [getD_replicate]
    exact le_refl 0

/-- The tracked path of `Insert` preserves the invariant, and the reported
element obeys the two-sided bound for the updated true weight of `x`. -/
theorem inv_step_tracked (hash : String → Nat) (f : String → Int) (s : Stream)
    (x : String) (w : Int) (idx : Nat) (hn : 1 ≤ s.n) (hw1 : 1 ≤ w)
    (_hf0 : ∀ y, 0 ≤ f y) (hinv : inv hash f s) (hc : alookup s.k.m x = some idx) :
    inv hash (fun y => if x = y then f y + w else f y) ((insert hash s x w).2) ∧
    f x + w ≤ ((insert hash s x w).1).Count ∧
    ((insert hash s x w).1).Count - ((insert hash s x w).1).Error ≤ f x + w := by
  simp only [inv] at hinv ⊢
  obtain ⟨hwf, hp, hlen, hel, hun, hnf, hfu⟩ := hinv
  obtain ⟨hidx, hkey⟩ := wfK_lookup hwf hc
  have h12 := insert_preserves_inv hash s x w hn hwf hp
  rw [insert_eq_tracked hash s x w idx hc] at h12 ⊢
  obtain ⟨B, hB⟩ : ∃ B : Element,
      ({ Key := (getE s.k.elts idx).Key,
         Count := (getE s.k.elts idx).Count + w,
         Error := (getE s.k.elts idx).Error } : Element) = B := ⟨_, rfl⟩
  rw [hB] at h12 ⊢
  have hBKey : B.Key = x := by rw [← hB]; exact hkey
  have hBCount : B.Count = (getE s.k.elts idx).Count + w := by rw [← hB]
  have hBError : B.Error = (getE s.k.elts idx).Error := by rw [← hB]
  have hbOld := hel (getE s.k.elts idx) (getE_mem hidx)
  rw [hkey] at hbOld
  have hperm : ((heapFix { m := s.k.m, elts := s.k.elts.set idx B } idx).elts).Perm
      (s.k.elts.set idx B) :=
    heapFix_perm _ idx (by dsimp only; rw [length_setL]; exact hidx)
  refine ⟨⟨h12.1, h12.2, hlen, ?_, ?_, ?_, ?_⟩, ?_⟩
  · intro e he
    dsimp only at he
    rcases mem_set_cases hidx (hperm.mem_iff.mp he) with rfl | ⟨t, ht, hti, rfl⟩
    · rw [hBKey, if_pos rfl]
      omega
    · have hne : (getE s.k.elts t).Key ≠ x := by
        rw [← hkey]
        exact wfK_key_ne hwf ht hidx hti
      rw [if_neg fun h => hne h.symm]
      exact hel _ (getE_mem ht)
  · intro y hy
    dsimp only at hy ⊢
    have hy2 : y ∉ ((heapFix { m := s.k.m, elts := s.k.elts.set idx B } idx).elts).map (·.Key) := by
      intro hmem
      have hsome : (alookup (heapFix { m := s.k.m, elts := s.k.elts.set idx B } idx).m y).isSome :=
        (wfK_tracked_iff h12.1).mpr hmem
      rw [hy] at hsome
      simp at hsome
    have hBmem : B ∈ (heapFix { m := s.k.m, elts := s.k.elts.set idx B } idx).elts := by
      apply hperm.mem_iff.mpr
      have h1 := getE_mem (l := s.k.elts.set idx B) (i := idx)
        (by rw [length_setL]; exact hidx)
      rwa [getE_set_self hidx] at h1
    have hyx : y ≠ x := fun h =>
      hy2 (List.mem_map.mpr ⟨B, hBmem, hBKey.trans h.symm⟩)
    have hyold : alookup s.k.m y = none := by
      cases hc2 : alookup s.k.m y with
      | none => rfl
      | some t =>
          obtain ⟨ht, hkt⟩ := wfK_lookup hwf hc2
          by_cases hti : t = idx
          · rw [hti] at hkt
            exact absurd (hkey.symm.trans hkt).symm hyx
          · refine absurd (List.mem_map.mpr ⟨getE s.k.elts t, ?_, hkt⟩) hy2
            apply hperm.mem_iff.mpr
            have h1 := getE_mem (l := s.k.elts.set idx B) (i := t)
              (by rw [length_setL]; exact ht)
            rwa [getE_set_ne hti] at h1
    rw [if_neg fun h => hyx h.symm]
    exact hun y hyold
  · intro hnf'
    dsimp only at hnf'
    rw [heapFix_elts_length] at hnf'
    dsimp only at hnf'
    rw [length_setL] at hnf'
    exact hnf hnf'
  · intro hfu' j
    dsimp only at hfu' ⊢
    rw [heapFix_elts_length] at hfu'
    dsimp only at hfu'
    rw [length_setL] at hfu'
    have hroot := hfu hfu' j
    have h0new : 0 < ((heapFix { m := s.k.m, elts := s.k.elts.set idx B } idx).elts).length := by
      rw [heapFix_elts_length]
      dsimp only
      rw [length_setL]
      simp only [bufMultiplier] at hfu'
      omega
    have hge : (getE s.k.elts 0).Count ≤
        (getE (heapFix { m := s.k.m, elts := s.k.elts.set idx B } idx).elts 0).Count := by
      apply getE_zero_count_ge hperm h0new
      intro e he
      rcases mem_set_cases hidx he with rfl | ⟨t, ht, hti, rfl⟩
      · have h1 := leE_count (heapProp_root_le hp idx hidx)
        omega
      · exact leE_count (heapProp_root_le hp t ht)
    exact le_trans hroot hge
  · dsimp only
    rw [getE_set_self hidx]
    omega

/-- The free-space push path of `Insert` preserves the invariant, and the
reported element obeys the two-sided bound. -/
theorem inv_step_push (hash : String → Nat) (f : String → Int) (s : Stream)
    (x : String) (w : Int) (hn : 1 ≤ s.n) (hw1 : 1 ≤ w)
    (hf0 : ∀ y, 0 ≤ f y) (hinv : inv hash f s) (hc : alookup s.k.m x = none)
    (hfree : (s.k.elts.length : Int) < s.n * bufMultiplier) :
    inv hash (fun y => if x = y then f y + w else f y) ((insert hash s x w).2) ∧
    f x + w ≤ ((insert hash s x w).1).Count ∧
    ((insert hash s x w).1).Count - ((insert hash s x w).1).Error ≤ f x + w := by
  simp only [inv] at hinv ⊢
  obtain ⟨hwf, hp, hlen, hel, hun, hnf, hfu⟩ := hinv
  have h12 := insert_preserves_inv hash s x w hn hwf hp
  rw [insert_eq_push hash s x w hc hfree] at h12 ⊢
  have hfx : f x = 0 := by
    have h1 := hun x hc
    have h2 := hnf hfree (reduce (hash x) (s.alphas.length : Int))
    have h3 := hf0 x
    omega
  have hpperm := heapPush_perm s.k { Key := x, Count := w, Error := 0 }
  refine ⟨⟨h12.1, h12.2, hlen, ?_, ?_, ?_, ?_⟩, ?_⟩
  · intro e he
    dsimp only at he
    rcases List.mem_append.mp (hpperm.mem_iff.mp he) with he2 | he2
    · have hne : e.Key ≠ x := by
        intro hk
        have hsome := (wfK_tracked_iff hwf).mpr (List.mem_map.mpr ⟨e, he2, hk⟩)
        rw [hc] at hsome
        simp at hsome
      rw [if_neg fun h => hne h.symm]
      exact hel e he2
    · have he3 : e = { Key := x, Count := w, Error := 0 } := by simpa using he2
      subst he3
      dsimp only
      rw [if_pos rfl]
      omega
  · intro y hy
    dsimp only at hy ⊢
    have hy2 : y ∉ ((heapPush s.k { Key := x, Count := w, Error := 0 }).elts).map
        (·.Key) := by
      intro hmem
      have hsome : (alookup (heapPush s.k
          { Key := x, Count := w, Error := 0 }).m y).isSome :=
        (wfK_tracked_iff h12.1).mpr hmem
      rw [hy] at hsome
      simp at hsome
    have hyold : alookup s.k.m y = none := by
      cases hc2 : alookup s.k.m y with
      | none => rfl
      | some t =>
          obtain ⟨ht, hkt⟩ := wfK_lookup hwf hc2
          exact absurd (List.mem_map.mpr ⟨getE s.k.elts t,
            hpperm.mem_iff.mpr (List.mem_append.mpr (Or.inl (getE_mem ht))),
            hkt⟩) hy2
    have hyx : y ≠ x := fun h =>
      hy2 (List.mem_map.mpr ⟨{ Key := x, Count := w, Error := 0 },
        hpperm.mem_iff.mpr (List.mem_append.mpr
          (Or.inr (List.mem_singleton.mpr rfl))), h.symm⟩)
    rw [if_neg fun h => hyx h.symm]
    exact hun y hyold
  · intro hnf' j
    dsimp only at hnf'
    rw [heapPush_elts_length] at hnf'
    have hfree' : (s.k.elts.length : Int) < s.n * bufMultiplier := by
      push_cast at hnf'
      omega
    exact hnf hfree' j
  · intro hfu' j
    dsimp only at hfu' ⊢
    rw [hnf hfree j]
    have h0new : 0 < ((heapPush s.k { Key := x, Count := w, Error := 0 }).elts).length := by
      rw [heapPush_elts_length]
      omega
    apply getE_zero_count_ge hpperm h0new
    intro e he
    rcases List.mem_append.mp he with he2 | he2
    · have h1 := (hel e he2).1
      have h2 := hf0 e.Key
      omega
    · have he3 : e = { Key := x, Count := w, Error := 0 } := by simpa using he2
      subst he3
      dsimp only
      omega
  · dsimp only
    omega

/-- The filter-accumulation path of `Insert` preserves the invariant, and
the reported element obeys the two-sided bound. -/
theorem inv_step_filter (hash : String → Nat) (f : String → Int) (s : Stream)
    (x : String) (w : Int) (_hn : 1 ≤ s.n) (hw1 : 1 ≤ w)
    (hf0 : ∀ y, 0 ≤ f y) (hinv : inv hash f s) (hc : alookup s.k.m x = none)
    (hfull : ¬ (s.k.elts.length : Int) < s.n * bufMultiplier)
    (hsmall : s.alphas.getD (reduce (hash x) (s.alphas.length : Int)) 0 + w <
      (getE s.k.elts 0).Count) :
    inv hash (fun y => if x = y then f y + w else f y) ((insert hash s x w).2) ∧
    f x + w ≤ ((insert hash s x w).1).Count ∧
    ((insert hash s x w).1).Count - ((insert hash s x w).1).Error ≤ f x + w := by
  simp only [inv] at hinv ⊢
  obtain ⟨hwf, hp, hlen, hel, hun, hnf, hfu⟩ := hinv
  rw [insert_eq_filter hash s x w hc hfull hsmall]
  have hxh : reduce (hash x) (s.alphas.length : Int) < s.alphas.length := by
    have h1 := reduce_lt (hash x) (s.alphas.length : Int) (by omega)
    omega
  refine ⟨⟨hwf, hp, ?_, ?_, ?_, ?_, ?_⟩, ?_⟩
  · dsimp only
    rw [length_setL]
    exact hlen
  · intro e he
    dsimp only at he
    have hne : e.Key ≠ x := by
      intro hk
      have hsome := (wfK_tracked_iff hwf).mpr (List.mem_map.mpr ⟨e, he, hk⟩)
      rw [hc] at hsome
      simp at hsome
    rw [if_neg fun h => hne h.symm]
    exact hel e he
  · intro y hy
    dsimp only at hy ⊢
    rw [length_setL]
    by_cases hyx : y = x
    · rw [hyx, if_pos rfl, getD_set_self (0 : Int) hxh]
      have h1 := hun x hc
      omega
    · rw [if_neg fun h => hyx h.symm]
      by_cases hj : reduce (hash y) (s.alphas.length : Int) =
          reduce (hash x) (s.alphas.length : Int)
      · rw [hj, getD_set_self (0 : Int) hxh]
        have h1 := hun y hy
        rw [hj] at h1
        omega
      · rw [getD_set_ne (0 : Int) hj]
        exact hun y hy
  · intro hnf'
    dsimp only at hnf'
    exact absurd hnf' hfull
  · intro _ j
    dsimp only
    by_cases hj : j = reduce (hash x) (s.alphas.length : Int)
    · rw [hj, getD_set_self (0 : Int) hxh]
      omega
    · rw [getD_set_ne (0 : Int) hj]
      exact hfu hfull j
  · dsimp only
    have h1 := hun x hc
    have h2 := hf0 x
    omega

/-- The eviction path of `Insert` preserves the invariant, and the reported
element obeys the two-sided bound. -/
theorem inv_step_evict (hash : String → Nat) (f : String → Int) (s : Stream)
    (x : String) (w : Int) (hn : 1 ≤ s.n) (_hw1 : 1 ≤ w)
    (hf0 : ∀ y, 0 ≤ f y) (hinv : inv hash f s) (hc : alookup s.k.m x = none)
    (hfull : ¬ (s.k.elts.length : Int) < s.n * bufMultiplier)
    (hbig : ¬ s.alphas.getD (reduce (hash x) (s.alphas.length : Int)) 0 + w <
      (getE s.k.elts 0).Count) :
    inv hash (fun y => if x = y then f y + w else f y) ((insert hash s x w).2) ∧
    f x + w ≤ ((insert hash s x w).1).Count ∧
    ((insert hash s x w).1).Count - ((insert hash s x w).1).Error ≤ f x + w := by
  simp only [inv] at hinv ⊢
  obtain ⟨hwf, hp, hlen, hel, hun, hnf, hfu⟩ := hinv
  have h12 := insert_preserves_inv hash s x w hn hwf hp
  rw [insert_eq_evict hash s x w hc hfull hbig] at h12 ⊢
  have hlen0 : 0 < s.k.elts.length := by
    simp only [bufMultiplier] at hfull
    omega
  have hxh : reduce (hash x) (s.alphas.length : Int) < s.alphas.length := by
    have h1 := reduce_lt (hash x) (s.alphas.length : Int) (by omega)
    omega
  have hmk : reduce (hash (getE s.k.elts 0).Key) (s.alphas.length : Int) <
      s.alphas.length := by
    have h1 := reduce_lt (hash (getE s.k.elts 0).Key) (s.alphas.length : Int) (by omega)
    omega
  have hbb : s.alphas.getD (reduce (hash x) (s.alphas.length : Int)) 0 ≤
      (s.alphas.set (reduce (hash (getE s.k.elts 0).Key) (s.alphas.length : Int))
        (getE s.k.elts 0).Count).getD (reduce (hash x) (s.alphas.length : Int)) 0 ∧
      (s.alphas.set (reduce (hash (getE s.k.elts 0).Key) (s.alphas.length : Int))
        (getE s.k.elts 0).Count).getD (reduce (hash x) (s.alphas.length : Int)) 0 ≤
      (getE s.k.elts 0).Count := by
    have hfb := hfu hfull (reduce (hash x) (s.alphas.length : Int))
    by_cases hj : reduce (hash x) (s.alphas.length : Int) =
        reduce (hash (getE s.k.elts 0).Key) (s.alphas.length : Int)
    · have he : (s.alphas.set (reduce (hash (getE s.k.elts 0).Key)
          (s.alphas.length : Int)) (getE s.k.elts 0).Count).getD
            (reduce (hash x) (s.alphas.length : Int)) 0 = (getE s.k.elts 0).Count := by
        rw [hj, getD_set_self (0 : Int) hmk]
      rw [he]
      exact ⟨hfb, le_refl _⟩
    · have he : (s.alphas.set (reduce (hash (getE s.k.elts 0).Key)
          (s.alphas.length : Int)) (getE s.k.elts 0).Count).getD
            (reduce (hash x) (s.alphas.length : Int)) 0 =
          s.alphas.getD (reduce (hash x) (s.alphas.length : Int)) 0 :=
        getD_set_ne (0 : Int) hj
      rw [he]
      exact ⟨le_refl _, hfb⟩
  obtain ⟨E, hE⟩ : ∃ E : Element,
      ({ Key := x,
         Count := (s.alphas.set (reduce (hash (getE s.k.elts 0).Key)
             (s.alphas.length : Int)) (getE s.k.elts 0).Count).getD
           (reduce (hash x) (s.alphas.length : Int)) 0 + w,
         Error := (s.alphas.set (reduce (hash (getE s.k.elts 0).Key)
             (s.alphas.length : Int)) (getE s.k.elts 0).Count).getD
           (reduce (hash x) (s.alphas.length : Int)) 0 } : Element) = E := ⟨_, rfl⟩
  rw [hE] at h12 ⊢
  have hEKey : E.Key = x := by rw [← hE]
  have hECount : E.Count = (s.alphas.set (reduce (hash (getE s.k.elts 0).Key)
      (s.alphas.length : Int)) (getE s.k.elts 0).Count).getD
        (reduce (hash x) (s.alphas.length : Int)) 0 + w := by rw [← hE]
  have hEError : E.Error = (s.alphas.set (reduce (hash (getE s.k.elts 0).Key)
      (s.alphas.length : Int)) (getE s.k.elts 0).Count).getD
        (reduce (hash x) (s.alphas.length : Int)) 0 := by rw [← hE]
  have hperm : ((heapFix { m := aset (adel s.k.m (getE s.k.elts 0).Key) x 0, elts := s.k.elts.set 0 E } 0).elts).Perm (s.k.elts.set 0 E) :=
    heapFix_perm _ 0 (by dsimp only; rw [length_setL]; exact hlen0)
  refine ⟨⟨h12.1, h12.2, ?_, ?_, ?_, ?_, ?_⟩, ?_⟩
  · dsimp only
    rw [length_setL]
    exact hlen
  · intro e he
    dsimp only at he
    rcases mem_set_cases hlen0 (hperm.mem_iff.mp he) with rfl | ⟨t, ht, hti, rfl⟩
    · rw [hEKey, if_pos rfl]
      have h1 := hun x hc
      have h2 := hf0 x
      have h3 := hbb.1
      omega
    · have hne : (getE s.k.elts t).Key ≠ x := by
        intro hk
        have hsome := (wfK_tracked_iff hwf).mpr
          (List.mem_map.mpr ⟨getE s.k.elts t, getE_mem ht, hk⟩)
        rw [hc] at hsome
        simp at hsome
      rw [if_neg fun h => hne h.symm]
      exact hel _ (getE_mem ht)
  · intro y hy
    dsimp only at hy ⊢
    rw [length_setL]
    have hy2 : y ∉ ((heapFix { m := aset (adel s.k.m (getE s.k.elts 0).Key) x 0, elts := s.k.elts.set 0 E } 0).elts).map (·.Key) := by
      intro hmem
      have hsome : (alookup (heapFix
          { m := aset (adel s.k.m (getE s.k.elts 0).Key) x 0, elts := s.k.elts.set 0 E } 0).m y).isSome :=
        (wfK_tracked_iff h12.1).mpr hmem
      rw [hy] at hsome
      simp at hsome
    have hEmem : E ∈ (heapFix { m := aset (adel s.k.m (getE s.k.elts 0).Key) x 0, elts := s.k.elts.set 0 E } 0).elts := by
      apply hperm.mem_iff.mpr
      have h1 := getE_mem (l := s.k.elts.set 0 E) (i := 0)
        (by rw [length_setL]; exact hlen0)
      rwa [getE_set_self hlen0] at h1
    have hyx : y ≠ x := fun h =>
      hy2 (List.mem_map.mpr ⟨E, hEmem, hEKey.trans h.symm⟩)
    rw [if_neg fun h => hyx h.symm]
    by_cases hym : y = (getE s.k.elts 0).Key
    · rw [hym, getD_set_self (0 : Int) hmk]
      exact (hel (getE s.k.elts 0) (getE_mem hlen0)).1
    · have hyold : alookup s.k.m y = none := by
        cases hc2 : alookup s.k.m y with
        | none => rfl
        | some t =>
            obtain ⟨ht, hkt⟩ := wfK_lookup hwf hc2
            by_cases ht0 : t = 0
            · rw [ht0] at hkt
              exact absurd hkt.symm hym
            · refine absurd (List.mem_map.mpr ⟨getE s.k.elts t, ?_, hkt⟩) hy2
              apply hperm.mem_iff.mpr
              have h1 := getE_mem (l := s.k.elts.set 0 E) (i := t)
                (by rw [length_setL]; exact ht)
              rwa [getE_set_ne ht0] at h1
      by_cases hj : reduce (hash y) (s.alphas.length : Int) =
          reduce (hash (getE s.k.elts 0).Key) (s.alphas.length : Int)
      · have he : (s.alphas.set (reduce (hash (getE s.k.elts 0).Key)
            (s.alphas.length : Int)) (getE s.k.elts 0).Count).getD
              (reduce (hash y) (s.alphas.length : Int)) 0 =
            (getE s.k.elts 0).Count := by
          rw [hj, getD_set_self (0 : Int) hmk]
        rw [he]
        have h1 := hun y hyold
        have h2 := hfu hfull (reduce (hash y) (s.alphas.length : Int))
        omega
      · rw [getD_set_ne (0 : Int) hj]
        exact hun y hyold
  · intro hnf'
    dsimp only at hnf'
    rw [heapFix_elts_length] at hnf'
    dsimp only at hnf'
    rw [length_setL] at hnf'
    exact absurd hnf' hfull
  · intro _ j
    dsimp only
    have h0new : 0 < ((heapFix { m := aset (adel s.k.m (getE s.k.elts 0).Key) x 0, elts := s.k.elts.set 0 E } 0).elts).length := by
      rw [heapFix_elts_length]
      dsimp only
      rw [length_setL]
      exact hlen0
    have hge : (getE s.k.elts 0).Count ≤
        (getE (heapFix { m := aset (adel s.k.m (getE s.k.elts 0).Key) x 0, elts := s.k.elts.set 0 E } 0).elts 0).Count := by
      apply getE_zero_count_ge hperm h0new
      intro e he
      rcases mem_set_cases hlen0 he with rfl | ⟨t, ht, hti, rfl⟩
      · have h1 := hbb.1
        omega
      · exact leE_count (heapProp_root_le hp t ht)
    by_cases hj : j = reduce (hash (getE s.k.elts 0).Key) (s.alphas.length : Int)
    · rw [hj, getD_set_self (0 : Int) hmk]
      exact hge
    · rw [getD_set_ne (0 : Int) hj]
      exact le_trans (hfu hfull j) hge
  · dsimp only
    have h1 := hun x hc
    have h2 := hf0 x
    have h3 := hbb.1
    omega

/-- One `Insert` preserves the invariant for the updated true-weight
function, and the element it reports obeys the two-sided bound. -/
theorem insert_inv_step (hash : String → Nat) (f : String → Int) (s : Stream)
    (x : String) (w : Int) (hn : 1 ≤ s.n) (hw1 : 1 ≤ w) (hf0 : ∀ y, 0 ≤ f y)
    (hinv : inv hash f s) :
    inv hash (fun y => if x = y then f y + w else f y) ((insert hash s x w).2) ∧
    f x + w ≤ ((insert hash s x w).1).Count ∧
    ((insert hash s x w).1).Count - ((insert hash s x w).1).Error ≤ f x + w := by
  cases hc : alookup s.k.m x with
  | some idx => exact inv_step_tracked hash f s x w idx hn hw1 hf0 hinv hc
  | none =>
      by_cases hfree : (s.k.elts.length : Int) < s.n * bufMultiplier
      · exact inv_step_push hash f s x w hn hw1 hf0 hinv hc hfree
      · by_cases hsmall : s.alphas.getD (reduce (hash x) (s.alphas.length : Int)) 0
            + w < (getE s.k.elts 0).Count
        · exact inv_step_filter hash f s x w hn hw1 hf0 hinv hc hfree hsmall
        · exact inv_step_evict hash f s x w hn hw1 hf0 hinv hc hfree hsmall

/-- Folding a batch of inserts over any invariant-satisfying state adds the
batch's true weights to the weight function. -/
theorem runInserts_inv_aux (hash : String → Nat) :
    ∀ (ops : List (String × Int)) (f : String → Int) (s : Stream),
      1 ≤ s.n → (∀ p ∈ ops, 1 ≤ p.2) → (∀ y, 0 ≤ f y) → inv hash f s →
      inv hash (fun y => f y + trueW ops y)
        (ops.foldl (fun t p => (insert hash t p.1 p.2).2) s) := by
  intro ops
  induction ops with
  | nil =>
      intro f s hn hws hf0 hinv
      exact inv_congr (fun y => by simp [trueW]) hinv
  | cons p t ih =>
      intro f s hn hws hf0 hinv
      have hwp : 1 ≤ p.2 := hws p (List.mem_cons_self p t)
      have hstep := insert_inv_step hash f s p.1 p.2 hn hwp hf0 hinv
      have hn' : 1 ≤ ((insert hash s p.1 p.2).2).n := by rw [insert_n]; exact hn
      have hf0' : ∀ y, 0 ≤ (fun y => if p.1 = y then f y + p.2 else f y) y := by
        intro y
        dsimp only
        have h1 := hf0 y
        split <;> omega
      have hrec := ih (fun y => if p.1 = y then f y + p.2 else f y)
        ((insert hash s p.1 p.2).2) hn'
        (fun q hq => hws q (List.mem_cons_of_mem p hq)) hf0' hstep.1
      refine inv_congr ?_ hrec
      intro y
      show (if p.1 = y then f y + p.2 else f y) + trueW t y =
        f y + ((if p.1 = y then p.2 else 0) + trueW t y)
      by_cases hpy : p.1 = y
      · rw [if_pos hpy, if_pos hpy]
        ring
      · rw [if_neg hpy, if_neg hpy]
        ring

/-- The invariant holds after any run of weighted inserts on a fresh
sketch, with the run's true weights as the weight function. -/
theorem runInserts_inv (hash : String → Nat) (n : Int) (ops : List (String × Int))
    (hn : 1 ≤ n) (hws : ∀ p ∈ ops, 1 ≤ p.2) :
    inv hash (trueW ops) (runInserts hash n ops) := by
  have h := runInserts_inv_aux hash ops (fun _ => 0) (new n) hn hws
    (fun _ => le_refl 0) (inv_new hash n hn)
  exact inv_congr (fun y => by simp) h

/-- C1: for every sequence of `Insert(key, weight)` calls with all weights
at least 1 on a sketch built by `New(n)` with `n ≥ 1`, every element of the
monitored set — as visible in the heap itself, through `Estimate` for every
tracked key, and through `Keys()` — satisfies `Count ≥` the true cumulative
inserted weight of its key and `Count − Error ≤` that true weight; and the
element reported by each individual `Insert` call of the run satisfies the
same two-sided bound for the true cumulative weight of its key up to and
including that call. -/
theorem claim_c1_error_bounds (hash : String → Nat) (n : Int)
    (ops : List (String × Int)) (hn : 1 ≤ n) (hws : ∀ p ∈ ops, 1 ≤ p.2) :
    (∀ e ∈ (runInserts hash n ops).k.elts,
        trueW ops e.Key ≤ e.Count ∧ e.Count - e.Error ≤ trueW ops e.Key) ∧
    (∀ x idx, alookup (runInserts hash n ops).k.m x = some idx →
        trueW ops x ≤ (estimate hash (runInserts hash n ops) x).Count ∧
        (estimate hash (runInserts hash n ops) x).Count -
          (estimate hash (runInserts hash n ops) x).Error ≤ trueW ops x) ∧
    (∀ e ∈ keysOf (runInserts hash n ops),
        trueW ops e.Key ≤ e.Count ∧ e.Count - e.Error ≤ trueW ops e.Key) ∧
    (∀ l₁ x w l₂, ops = l₁ ++ (x, w) :: l₂ →
        trueW (l₁ ++ [(x, w)]) x ≤
          ((insert hash (runInserts hash n l₁) x w).1).Count ∧
        ((insert hash (runInserts hash n l₁) x w).1).Count -
          ((insert hash (runInserts hash n l₁) x w).1).Error ≤
          trueW (l₁ ++ [(x, w)]) x) := by
  have hinv := runInserts_inv hash n ops hn hws
  simp only [inv] at hinv
  obtain ⟨hwf, hp, hlen, hel, hun, hnf, hfu⟩ := hinv
  refine ⟨hel, ?_, ?_, ?_⟩
  · intro x idx hx
    obtain ⟨hidx, hkey⟩ := wfK_lookup hwf hx
    simp only [estimate, hx]
    have hb := hel (getE (runInserts hash n ops).k.elts idx) (getE_mem hidx)
    rw [hkey] at hb
    exact hb
  · intro e he
    have hn0 : 0 ≤ (runInserts hash n ops).n := by rw [runInserts_n]; omega
    rw [keysOf_eq_take _ hn0] at he
    exact hel e ((sortD_perm _).mem_iff.mp (List.mem_of_mem_take he))
  · intro l₁ x w l₂ hops
    have hws1 : ∀ p ∈ l₁, 1 ≤ p.2 := fun p hp2 =>
      hws p (by rw [hops]; exact List.mem_append.mpr (Or.inl hp2))
    have hinv1 := runInserts_inv hash n l₁ hn hws1
    have hn1 : 1 ≤ (runInserts hash n l₁).n := by rw [runInserts_n]; exact hn
    have hwx : 1 ≤ w := hws (x, w)
      (by rw [hops]; exact List.mem_append.mpr (Or.inr (List.mem_cons_self _ _)))
    have hstep := insert_inv_step hash (trueW l₁) (runInserts hash n l₁) x w hn1
      hwx (trueW_nonneg hws1) hinv1
    have heq : trueW (l₁ ++ [(x, w)]) x = trueW l₁ x + w := by
      rw [trueW_append]
      show trueW l₁ x + ((if x = x then w else 0) + 0) = trueW l₁ x + w
      rw [if_pos rfl]
      ring
    rw [heq]
    exact hstep.2

/-- Witness for C1: a concrete three-insert run under a constant hash. -/
theorem claim_c1_error_bounds_witness :
    ((1 : Int) ≤ 1 ∧ ∀ p ∈ [("a", (2 : Int)), ("b", 1), ("a", 1)], 1 ≤ p.2) ∧
    ((∀ e ∈ (runInserts (fun _ => 0) 1 [("a", 2), ("b", 1), ("a", 1)]).k.elts,
        trueW [("a", 2), ("b", 1), ("a", 1)] e.Key ≤ e.Count ∧
        e.Count - e.Error ≤ trueW [("a", 2), ("b", 1), ("a", 1)] e.Key) ∧
    (∀ x idx, alookup (runInserts (fun _ => 0) 1
        [("a", 2), ("b", 1), ("a", 1)]).k.m x = some idx →
        trueW [("a", 2), ("b", 1), ("a", 1)] x ≤
          (estimate (fun _ => 0) (runInserts (fun _ => 0) 1
            [("a", 2), ("b", 1), ("a", 1)]) x).Count ∧
        (estimate (fun _ => 0) (runInserts (fun _ => 0) 1
            [("a", 2), ("b", 1), ("a", 1)]) x).Count -
          (estimate (fun _ => 0) (runInserts (fun _ => 0) 1
            [("a", 2), ("b", 1), ("a", 1)]) x).Error ≤
          trueW [("a", 2), ("b", 1), ("a", 1)] x) ∧
    (∀ e ∈ keysOf (runInserts (fun _ => 0) 1 [("a", 2), ("b", 1), ("a", 1)]),
        trueW [("a", 2), ("b", 1), ("a", 1)] e.Key ≤ e.Count ∧
        e.Count - e.Error ≤ trueW [("a", 2), ("b", 1), ("a", 1)] e.Key) ∧
    (∀ l₁ x w l₂, [("a", (2 : Int)), ("b", 1), ("a", 1)] = l₁ ++ (x, w) :: l₂ →
        trueW (l₁ ++ [(x, w)]) x ≤
          ((insert (fun _ => 0) (runInserts (fun _ => 0) 1 l₁) x w).1).Count ∧
        ((insert (fun _ => 0) (runInserts (fun _ => 0) 1 l₁) x w).1).Count -
          ((insert (fun _ => 0) (runInserts (fun _ => 0) 1 l₁) x w).1).Error ≤
          trueW (l₁ ++ [(x, w)]) x)) :=
  ⟨⟨by decide, by decide⟩,
    claim_c1_error_bounds (fun _ => 0) 1 [("a", 2), ("b", 1), ("a", 1)]
      (by decide) (by decide)⟩

end Topk

